import Mathlib

/-!
Verification of the harvesting and publishing pipeline of
`vite-plugin-llm-spider` (source: `src/index.js`).

The JavaScript pipeline is shallowly embedded: pure helpers
(`normalizeRoute`, `routeToMdWebPath`, `isExcluded`, `deepMerge`, the
index assembler) become Lean functions over `String` / `List Char`,
and the breadth-first crawl loop of `closeBundle` becomes an explicit
state machine.  JavaScript runs capture operations with cooperative
(single-threaded) concurrency: inside one batch every capture first
runs a synchronous prefix (visited / exclusion / page-cap checks plus
`visited.add`) before any `await`, and later commits its results
(`captured.push` plus harvested `queue.push`es) in one synchronous
segment; the depth-patching loop of the enclosing arrow runs after the
capture settles.  The model therefore splits a batch into a
classification phase (in batch order) and an event phase, where the
interleaving of commit and patch events is a parameter of the run.
-/

namespace LlmSpider

/-! ### Characters, trimming, slash collapsing -/

/-- JavaScript `String.prototype.trim`, modelled on the character list
(whitespace set approximated by `Char.isWhitespace`). -/
def jsTrimL (l : List Char) : List Char :=
  ((l.dropWhile Char.isWhitespace).reverse.dropWhile Char.isWhitespace).reverse

/-- `trim` on strings. -/
def trimS (s : String) : String := ⟨jsTrimL s.data⟩

/-- Worker for `s.replace(/\/{2,}/g, "/")`: the flag records whether the
previous kept character was a slash. -/
def collapseAux : Bool → List Char → List Char
  | _, [] => []
  | prevSlash, c :: rest =>
    if c = '/' then
      if prevSlash then collapseAux true rest
      else '/' :: collapseAux true rest
    else
      c :: collapseAux false rest

/-- Collapse runs of two or more consecutive slashes into a single slash,
as `s.replace(/\/{2,}/g, "/")` does. -/
def collapseSlashes (l : List Char) : List Char := collapseAux false l

/-- Does the list contain two consecutive slashes? -/
def hasDouble : List Char → Bool
  | [] => false
  | [_] => false
  | a :: b :: rest => (a == '/' && b == '/') || hasDouble (b :: rest)

/-- `p` is a prefix of the character list `l` (JS `startsWith`). -/
def pfx (p : String) (l : List Char) : Bool := p.data.isPrefixOf l

/-! ### UrlNormalizer (`normalizeRoute`, src/index.js lines 142-183) -/

/-- The leading-slash coercion of `normalizeRoute` (lines 172-177): keep
a string that already starts with `/`, turn a `./` prefix into `/` via
`s.slice(1)`, and otherwise prepend `/`. -/
def slashify (s₂ : List Char) : List Char :=
  if s₂.head? = some '/' then s₂
  else if pfx "./" s₂ then s₂.drop 1
  else '/' :: s₂

/-- The tail of `normalizeRoute` after the scheme checks and `trim`
(lines 160-182): hash strip, conditional query strip, empty check,
leading-slash coercion, slash collapsing. -/
def normTail (stripQuery : Bool) (s₀ : List Char) : Option (List Char) :=
  let s₁ := s₀.takeWhile (· ≠ '#')
  let s₂ := if stripQuery then s₁.takeWhile (· ≠ '?') else s₁
  if s₂ = [] then none
  else some (collapseSlashes (slashify s₂))

/-- `normalizeRoute` on character lists, mirroring the source statement by
statement: falsy check, non-page schemes, `trim`, absolute `http(s)`
rejection, then `normTail`. -/
def normalizeRouteL (stripQuery : Bool) (input : List Char) : Option (List Char) :=
  if input = [] then none
  else if pfx "mailto:" input || pfx "tel:" input || pfx "javascript:" input then none
  else
    let s₀ := jsTrimL input
    if pfx "http://" s₀ || pfx "https://" s₀ then none
    else normTail stripQuery s₀

/-- `normalizeRoute(input, { stripQuery })` from the source, on strings. -/
def normalizeRoute (stripQuery : Bool) (input : String) : Option String :=
  (normalizeRouteL stripQuery input.data).map fun l => ⟨l⟩

/-! ### ExclusionFilter (`isExcluded`, src/index.js lines 135-140) -/

/-- An exclusion rule is either a literal string (matched by
`route.includes(p)`) or a pattern (`RegExp`), modelled as an abstract
predicate on the route. -/
inductive ExRule where
  | lit (s : String)
  | pat (p : String → Bool)

/-- One rule applied to a route: `p instanceof RegExp ? p.test(route) :
route.includes(p)`. -/
def ruleMatches (route : String) : ExRule → Bool
  | .lit s => decide (s.data <:+: route.data)
  | .pat p => p route

/-- `isExcluded(route)`: some configured rule matches. -/
def isExcluded (rules : List ExRule) (route : String) : Bool :=
  rules.any (ruleMatches route)

/-! ### OutputPathMapper (`routeToMdWebPath`, src/index.js lines 185-190) -/

/-- `s.slice(1)` on the character list. -/
def drop1 (s : String) : String := ⟨s.data.drop 1⟩

/-- `routeToMdWebPath(route)` from the source: `/` maps to
`index.html.md`, a route ending in `/` (last character a slash) maps to
`route.slice(1) + "index.html.md"`, anything else to
`route.slice(1) + ".md"`. -/
def routeToMdWebPath (route : String) : String :=
  if route = "/" then "index.html.md"
  else if route.data.getLast? = some '/' then drop1 route ++ "index.html.md"
  else drop1 route ++ ".md"

/-- The two output layouts (`output.mode`). -/
inductive OutputMode where
  | sibling
  | subdir
deriving DecidableEq, Repr

/-- The web-relative markdown path as computed at the capture site
(src/index.js lines 401-404): under subdir layout the result of
`routeToMdWebPath` is joined below the configured subdirectory
(`path.posix.join` of two clean relative segments is `a ++ "/" ++ b`). -/
def mdRelPathFor (mode : OutputMode) (sub : String) (route : String) : String :=
  if mode = .subdir then sub ++ "/" ++ routeToMdWebPath route
  else routeToMdWebPath route

/-! ### Data model: routes, captured pages, options -/

/-- A user-declared route (the `RouteDef` typedef of the source), before
normalization in `closeBundle`. -/
structure RouteSpecIn where
  path : String
  title : Option String := none
  sectionName : Option String := none
  optional : Bool := false
  notes : Option String := none
deriving DecidableEq, Repr

/-- A resolved route definition (src/index.js lines 233-239): `path` is
normalized (with root fallback), `section` defaulted to `"Pages"`,
`optional` coerced to a boolean. -/
structure RouteDef where
  path : String
  title : Option String := none
  sectionName : String := "Pages"
  optional : Bool := false
  notes : Option String := none
deriving DecidableEq, Repr

/-- An entry of the `captured` array (src/index.js lines 417-424). -/
structure CapturedPage where
  route : String
  title : String
  sectionName : String
  optional : Bool
  notes : Option String
  mdRelPath : String
deriving DecidableEq, Repr

/-- JavaScript `a || b` for an optional string `a` (absent and the empty
string are falsy). -/
def jsOrS : Option String → String → String
  | some s, d => if s = "" then d else s
  | none, d => d

/-- The `crawl` option block with its merged defaults. -/
structure CrawlOpts where
  enabled : Bool := false
  seeds : List String := ["/"]
  maxDepth : Int := 2
  maxPages : Nat := 50
  concurrency : Nat := 3
  stripQuery : Bool := true

/-- The `output` option block with its merged defaults. -/
structure OutputOpts where
  mode : OutputMode := .sibling
  subdir : String := "ai"
  llmsTxtFileName : String := "llms.txt"
  llmsTitle : Option String := none
  llmsSummary : String := "LLM-friendly index of important pages and their Markdown equivalents."
  sort : Bool := true

/-- The merged plugin options used by `closeBundle`, restricted to the
fields the pipeline reads, plus the two values taken from the resolved
Vite config: `base` (already normalized to end in `/`) and `env.mode`.
Render/extract/markdown options configure the external renderer and
converter, which the model folds into the page environment below. -/
structure SpiderOptions where
  routes : Option (List RouteSpecIn) := none
  crawl : CrawlOpts := {}
  exclude : List ExRule := [.lit "/login", .lit "/admin", .lit "/account"]
  output : OutputOpts := {}
  base : String := "/"
  envMode : String := "production"

/-- The environment a run observes through the renderer / DOM / converter
collaborators, per route: the text of the `<title>` element after
extraction, the harvested `a[href]` attribute values, and whether the
whole guarded body of `captureOne` (navigation, selector wait, hooks,
extraction, conversion, file write) succeeds.  The spec treats all of
these as external contracts. -/
structure PageEnv where
  titleText : String → String
  links : String → List String
  ok : String → Bool

/-! ### RouteSource (src/index.js lines 228-246, 304-321) -/

/-- Resolution of one declared route (the mapping function of lines
233-239): the path is normalized with `stripQuery: true` and falls back
to `"/"` when normalization rejects it (`|| "/"`); the section defaults
to `"Pages"`. -/
def resolveRouteSpec (r : RouteSpecIn) : RouteDef :=
  { path := jsOrS (normalizeRoute true r.path) "/"
    title := r.title
    sectionName := jsOrS r.sectionName "Pages"
    optional := r.optional
    notes := r.notes }

/-- Resolution of the declared route list (lines 228-246): with no
non-empty route list and no crawl, the single root route is used. -/
def resolveRouteDefs (o : SpiderOptions) : List RouteDef :=
  match o.routes with
  | some rs =>
    if rs = [] then
      if o.crawl.enabled then [] else [{ path := "/" }]
    else
      rs.map resolveRouteSpec
  | none =>
    if o.crawl.enabled then [] else [{ path := "/" }]

/-- Initial work queue (lines 304-313): crawl seeds are normalized with
the configured `stripQuery` and dropped when rejected; in explicit mode
every resolved route enters at depth 0. -/
def initQueue (o : SpiderOptions) (rds : List RouteDef) : List (String × Int) :=
  if o.crawl.enabled then
    o.crawl.seeds.filterMap fun s =>
      (normalizeRoute o.crawl.stripQuery s).map fun n => (n, (0 : Int))
  else
    rds.map fun rd => (rd.path, (0 : Int))

/-- The derived run parameters (lines 315-321): `maxPages` in explicit
mode is the length of the seeded queue. -/
structure RunCfg where
  crawlEnabled : Bool
  stripQuery : Bool
  maxDepth : Int
  maxPages : Nat
  conc : Nat
  exclude : List ExRule
  routeDefs : List RouteDef
  base : String
  outMode : OutputMode
  outSubdir : String

/-- Build the run parameters from the merged options. -/
def mkRunCfg (o : SpiderOptions) : RunCfg :=
  let rds := resolveRouteDefs o
  { crawlEnabled := o.crawl.enabled
    stripQuery := o.crawl.stripQuery
    maxDepth := if o.crawl.enabled then o.crawl.maxDepth else 0
    maxPages := if o.crawl.enabled then o.crawl.maxPages else (initQueue o rds).length
    conc := if o.crawl.enabled then o.crawl.concurrency else 3
    exclude := o.exclude
    routeDefs := rds
    base := o.base
    outMode := o.output.mode
    outSubdir := o.output.subdir }

/-! ### CrawlScheduler state machine (src/index.js lines 293-301, 323-493) -/

/-- The mutable collections of `closeBundle`: the visited set (modelled
as a duplicate-free list in insertion order), the `captured` array and
the work queue of `(route, depth)` entries (depth `-1` is the unresolved
marker of harvested links). -/
structure SpiderState where
  visited : List String
  captured : List CapturedPage
  queue : List (String × Int)
deriving DecidableEq, Repr

/-- Status of one batch member after its synchronous prefix ran:
`skip` when the arrow returned early on `depth > maxDepth` (line 481,
before `captureOne` and before the patch loop); `inert` when
`captureOne` returned early on the visited / exclusion / page-cap
guards (lines 324-326) so the arrow still reaches the patch loop but
the patch is a no-op because at that instant no unresolved entry can
exist; `activeOk` / `activeFail` when the route was registered in the
visited set (line 328) and the guarded body then succeeds / throws. -/
inductive MStatus where
  | skip
  | inert
  | activeOk
  | activeFail
deriving DecidableEq, Repr

/-- One batch member: route, dispatch depth and classification. -/
structure BatchMember where
  route : String
  depth : Int
  status : MStatus
deriving DecidableEq, Repr

/-- The synchronous prefix of one capture (arrow guard plus
`captureOne` lines 323-328).  `preCount` is `captured.length` when the
batch was dispatched: all members read it before any member commits. -/
def classifyOne (rc : RunCfg) (env : PageEnv) (preCount : Nat)
    (visited : List String) (m : String × Int) : List String × BatchMember :=
  if rc.crawlEnabled ∧ rc.maxDepth < m.2 then
    (visited, ⟨m.1, m.2, .skip⟩)
  else if m.1 ∈ visited then
    (visited, ⟨m.1, m.2, .inert⟩)
  else if isExcluded rc.exclude m.1 then
    (visited, ⟨m.1, m.2, .inert⟩)
  else if rc.maxPages ≤ preCount then
    (visited, ⟨m.1, m.2, .inert⟩)
  else
    (visited ++ [m.1], ⟨m.1, m.2, if env.ok m.1 then .activeOk else .activeFail⟩)

/-- Classify a whole batch in dispatch order, threading the visited set
(the prefixes run back to back before any suspension resolves). -/
def classify (rc : RunCfg) (env : PageEnv) (preCount : Nat) :
    List String → List (String × Int) → List String × List BatchMember
  | visited, [] => (visited, [])
  | visited, m :: rest =>
    let c := classifyOne rc env preCount visited m
    let r := classify rc env preCount c.1 rest
    (r.1, c.2 :: r.2)

/-- The extracted page title (line 395): `($("title").text() || "")
.trim() || route`. -/
def extractedTitle (env : PageEnv) (route : String) : String :=
  let t := trimS (env.titleText route)
  if t = "" then route else t

/-- The captured-page record pushed at lines 416-424: metadata defaults
come from the matching resolved route definition when present. -/
def mkPage (rc : RunCfg) (env : PageEnv) (route : String) : CapturedPage :=
  let meta := rc.routeDefs.find? fun r => r.path = route
  { route := route
    title := jsOrS (meta.bind (·.title)) (extractedTitle env route)
    sectionName := jsOrS (meta.map (·.sectionName)) "Pages"
    optional := (meta.map (·.optional)).getD false
    notes := meta.bind (·.notes)
    mdRelPath := mdRelPathFor rc.outMode rc.outSubdir route }

/-- Base-prefix stripping of a harvested link (lines 442-451). -/
def stripBase (normalizedBase : String) (n : String) : String :=
  if normalizedBase ≠ "/" ∧ normalizedBase.data.isPrefixOf n.data then
    let b := "/" ++ String.mk (n.data.drop normalizedBase.data.length)
    if b = "//" then "/" else ⟨collapseSlashes b.data⟩
  else n

/-- Link harvesting (lines 429-459): each `href` is normalized with the
crawl `stripQuery`, made base-relative, and enqueued with the unresolved
depth marker `-1` unless already visited or excluded.  The visited set
is the one fixed after the classification phase: it does not change
while the batch is in flight. -/
def harvest (rc : RunCfg) (env : PageEnv) (visited : List String)
    (route : String) : List (String × Int) :=
  (env.links route).filterMap fun href =>
    match normalizeRoute rc.stripQuery href with
    | none => none
    | some n =>
      let b := stripBase rc.base n
      if b ∉ visited ∧ isExcluded rc.exclude b = false then
        some (b, (-1 : Int))
      else none

/-- The synchronous commit segment of a successful capture: push the
captured page (line 417) and, in crawl mode, the harvested links
(line 457). -/
def commitMember (rc : RunCfg) (env : PageEnv) (st : SpiderState)
    (route : String) : SpiderState :=
  { st with
    captured := st.captured ++ [mkPage rc env route]
    queue :=
      if rc.crawlEnabled then st.queue ++ harvest rc env st.visited route
      else st.queue }

/-- The depth-patch loop of lines 487-489: every queue entry carrying
the unresolved marker is set to the depth of the patching member plus one. -/
def patchAll (d : Int) (q : List (String × Int)) : List (String × Int) :=
  q.map fun e => if e.2 = -1 then (e.1, d + 1) else e

/-- An observable event while a batch is in flight: member `i` commits
(its guarded body finishes: `captured.push` plus harvest pushes), or
member `i` runs its depth-patch loop (after `captureOne` settles). -/
inductive Ev where
  | commit (i : Nat)
  | patch (i : Nat)
deriving DecidableEq, Repr

/-- Accumulator of the in-flight phase: the state plus the sets of
member indices whose commit / patch already happened (each happens at
most once per member in JavaScript; the masks make the step function
total on arbitrary event lists). -/
structure P2 where
  st : SpiderState
  done : List Nat
  patched : List Nat

/-- Apply one event.  Commits are only possible for members classified
`activeOk`; patch loops run for every member that entered `captureOne`
(both outcomes).  Events not matching the classification are ignored:
they cannot occur in a real run. -/
def applyEv (rc : RunCfg) (env : PageEnv) (members : List BatchMember)
    (a : P2) : Ev → P2
  | .commit i =>
    match members[i]? with
    | some m =>
      if m.status = .activeOk ∧ i ∉ a.done then
        { a with st := commitMember rc env a.st m.route, done := i :: a.done }
      else a
    | none => a
  | .patch i =>
    match members[i]? with
    | some m =>
      if (m.status = .activeOk ∨ m.status = .activeFail) ∧ i ∉ a.patched then
        { a with
          st := { a.st with queue := patchAll m.depth a.st.queue }
          patched := i :: a.patched }
      else a
    | none => a

/-- One iteration of the BFS while-loop (lines 470-493): splice up to
`concurrency` entries, resolve leftover `-1` depths to `1` (line 475),
run the classification phase, then replay the in-flight events. -/
def runStep (rc : RunCfg) (env : PageEnv) (st : SpiderState)
    (evs : List Ev) : SpiderState :=
  let raw := st.queue.take rc.conc
  let rest := st.queue.drop rc.conc
  let ms := raw.map fun e => (e.1, if 0 ≤ e.2 then e.2 else 1)
  let (v', members) := classify rc env st.captured.length st.visited ms
  (evs.foldl (applyEv rc env members) ⟨⟨v', st.captured, rest⟩, [], []⟩).st

/-- The classification result of the batch that `runStep` would process,
exposed for stating schedule validity. -/
def stepMembers (rc : RunCfg) (env : PageEnv) (st : SpiderState) :
    List BatchMember :=
  (classify rc env st.captured.length st.visited
    ((st.queue.take rc.conc).map fun e => (e.1, if 0 ≤ e.2 then e.2 else 1))).2

/-- The while-loop, fuel-indexed; `sched` supplies the event
interleaving of each batch. -/
def runLoop (rc : RunCfg) (env : PageEnv) :
    Nat → List (List Ev) → SpiderState → SpiderState
  | 0, _, st => st
  | fuel + 1, sched, st =>
    if st.queue ≠ [] ∧ st.captured.length < rc.maxPages then
      runLoop rc env fuel sched.tail (runStep rc env st (sched.headD []))
    else st

/-- A whole run of the pipeline core: resolve routes, seed the queue,
drive the loop. -/
def runSpider (o : SpiderOptions) (env : PageEnv) (sched : List (List Ev))
    (fuel : Nat) : SpiderState :=
  let rds := resolveRouteDefs o
  runLoop (mkRunCfg o) env fuel sched ⟨[], [], initQueue o rds⟩

/-! ### Schedule validity

A real JavaScript execution produces, for each batch, an event list in
which every event belongs to a member that reached the corresponding
point, no event happens twice, every successful member commits and then
patches (in that order; the patch loop runs only after `captureOne`
settles), and every failed member patches. -/

/-- Well-formedness of one event against the classification. -/
def evWf (members : List BatchMember) : Ev → Prop
  | .commit i => members[i]?.map (·.status) = some .activeOk
  | .patch i =>
    members[i]?.map (·.status) = some .activeOk ∨
      members[i]?.map (·.status) = some .activeFail

/-- A legal in-flight event list for a classified batch: no event
happens twice, every event belongs to a member that reaches that point,
every successful member commits and then (strictly later) patches, and
every failed member patches. -/
def ValidEvents (members : List BatchMember) (evs : List Ev) : Prop :=
  evs.Nodup ∧ (∀ ev ∈ evs, evWf members ev) ∧
    ∀ i, (members[i]?.map (·.status) = some .activeOk →
            [Ev.commit i, Ev.patch i].Sublist evs) ∧
         (members[i]?.map (·.status) = some .activeFail → Ev.patch i ∈ evs)

/-- Boolean counterpart of `evWf`. -/
def evWfB (members : List BatchMember) : Ev → Bool
  | .commit i => members[i]?.map (·.status) == some .activeOk
  | .patch i =>
    (members[i]?.map (·.status) == some .activeOk) ||
      (members[i]?.map (·.status) == some .activeFail)

/-- Executable duplicate-freedom check. -/
def nodupB : List Ev → Bool
  | [] => true
  | e :: r => !(r.contains e) && nodupB r

/-- Executable sublist (subsequence) check. -/
def isSubB : List Ev → List Ev → Bool
  | [], _ => true
  | _ :: _, [] => false
  | a :: l, b :: r => if a = b then isSubB l r else isSubB (a :: l) r

/-- Boolean counterpart of `ValidEvents`. -/
def validEventsB (members : List BatchMember) (evs : List Ev) : Bool :=
  nodupB evs && evs.all (evWfB members) &&
    members.enum.all fun im =>
      match im.2.status with
      | .activeOk => isSubB [Ev.commit im.1, Ev.patch im.1] evs
      | .activeFail => evs.contains (Ev.patch im.1)
      | _ => true

/-- Validity of a whole schedule along the run it drives. -/
def schedValidB (rc : RunCfg) (env : PageEnv) :
    Nat → List (List Ev) → SpiderState → Bool
  | 0, _, _ => true
  | fuel + 1, sched, st =>
    if st.queue ≠ [] ∧ st.captured.length < rc.maxPages then
      validEventsB (stepMembers rc env st) (sched.headD []) &&
        schedValidB rc env fuel sched.tail (runStep rc env st (sched.headD []))
    else true

/-! ### IndexAssembler (`closeBundle` lines 496-543) -/

/-- `makeLlmsLink`: backslashes become forward slashes. -/
def makeLlmsLink (relMdPath : String) : String :=
  ⟨relMdPath.data.map fun c => if c = '\\' then '/' else c⟩

/-- `bySection.set(s, [...(bySection.get(s) || []), item])` over an
insertion-ordered map. -/
def upsert (m : List (String × List CapturedPage)) (k : String)
    (p : CapturedPage) : List (String × List CapturedPage) :=
  match m with
  | [] => [(k, [p])]
  | (k', ps) :: rest =>
    if k' = k then (k', ps ++ [p]) :: rest else (k', ps) :: upsert rest k p

/-- Partition the (possibly sorted) items into the section map and the
optional list (lines 505-516). -/
def groupItems (items : List CapturedPage) :
    List (String × List CapturedPage) × List CapturedPage :=
  items.foldl
    (fun (acc : List (String × List CapturedPage) × List CapturedPage) it =>
      if it.optional then (acc.1, acc.2 ++ [it])
      else (upsert acc.1 (if it.sectionName = "" then "Pages" else it.sectionName) it, acc.2))
    ([], [])

/-- One `- [label](link): notes` line (lines 523-526, 534-537). -/
def renderItem (it : CapturedPage) : String :=
  let label := if it.title = "" then it.route else it.title
  let notes := match it.notes with
    | some n => if n = "" then "" else ": " ++ n
    | none => ""
  "- [" ++ label ++ "](" ++ makeLlmsLink it.mdRelPath ++ ")" ++ notes ++ "\n"

/-- One `## section` block. -/
def renderSection (sec : String × List CapturedPage) : String :=
  "## " ++ sec.1 ++ "\n\n" ++ String.join (sec.2.map renderItem) ++ "\n"

/-- Lexicographic comparison of character lists by code point: the
order `a.route.localeCompare(b.route)` induces on the ASCII route keys
of this pipeline. -/
def lexLe : List Char → List Char → Bool
  | [], _ => true
  | _ :: _, [] => false
  | a :: as, b :: bs =>
    if a.toNat < b.toNat then true
    else if b.toNat < a.toNat then false
    else lexLe as bs

/-- The comparator of line 501 as a relation on captured pages. -/
def pageLe (a b : CapturedPage) : Prop := lexLe a.route.data b.route.data = true

instance : DecidableRel pageLe := fun a b =>
  inferInstanceAs (Decidable (lexLe a.route.data b.route.data = true))

/-- The items in published order (lines 500-502): the captured array,
sorted by route when `output.sort` is on.  `Array.prototype.sort` is a
comparator-correct stable sort; it is modelled by insertion sort, which
is comparator-correct, and on the reachable inputs (route keys are
duplicate-free, see `runSpider_captured_nodup`) every comparator-correct
sort produces the same sequence. -/
def orderedItems (o : SpiderOptions) (captured : List CapturedPage) :
    List CapturedPage :=
  if o.output.sort then List.insertionSort pageLe captured
  else captured

/-- The full `llms.txt` content (lines 496-540). -/
def buildLlms (o : SpiderOptions) (captured : List CapturedPage) : String :=
  let llmsTitle := jsOrS o.output.llmsTitle (jsOrS (some o.envMode) "Site")
  let items := orderedItems o captured
  let (bySection, optionalItems) := groupItems items
  let head := "# " ++ llmsTitle ++ "\n\n> " ++ o.output.llmsSummary ++ "\n\n"
  let body := String.join (bySection.map renderSection)
  let opt :=
    if optionalItems ≠ [] then
      "## Optional\n\n" ++ String.join (optionalItems.map renderItem) ++ "\n"
    else ""
  head ++ body ++ opt

/-! ### Configuration merging (`deepMerge`, src/index.js lines 23-33)

The option objects handled by `deepMerge` are modelled as a JSON-like
value type: JavaScript objects become insertion-ordered association
lists, and the two kinds of values the defaults hold that are neither
plain data nor objects (RegExp instances and the two hook functions)
become opaque tagged constructors. -/

/-- A JavaScript value as seen by `deepMerge`. -/
inductive JVal where
  | vundef
  | vnull
  | vbool (b : Bool)
  | vnum (n : Int)
  | vstr (s : String)
  | vregexp (id : Nat)
  | vfun (id : Nat)
  | varr (elems : List JVal)
  | vobj (fields : List (String × JVal))

/-- JavaScript truthiness of a `JVal`. -/
def truthy : JVal → Bool
  | .vundef => false
  | .vnull => false
  | .vbool b => b
  | .vnum n => n != 0
  | .vstr s => s ≠ ""
  | _ => true

/-- The own enumerable properties picked up by `{ ...v }`: the fields
of an object, the index-keyed characters of a string, nothing for the
remaining values. -/
def spreadFields : JVal → List (String × JVal)
  | .vobj fs => fs
  | .vstr s => s.data.enum.map fun e => (toString e.1, JVal.vstr ⟨[e.2]⟩)
  | _ => []

/-- `result[key] = v`: replace in place when the key exists (property
order is preserved), append otherwise. -/
def setKey : List (String × JVal) → String → JVal → List (String × JVal)
  | [], k, v => [(k, v)]
  | (k', v') :: rest, k, v =>
    if k' = k then (k, v) :: rest else (k', v') :: setKey rest k v

/-- The property view of `target[key] || {}`. -/
def targetFields (target : List (String × JVal)) (k : String) :
    List (String × JVal) :=
  match List.lookup k target with
  | some v => if truthy v then spreadFields v else []
  | none => []

mutual
/-- The loop of `deepMerge`: `target` backs the `target[key]` lookups,
`result` starts as `{ ...target }` and is mutated key by key. -/
def deepMergeAux (target result : List (String × JVal)) :
    List (String × JVal) → List (String × JVal)
  | [] => result
  | (k, sv) :: rest => deepMergeAux target (deepMergeKey target result k sv) rest

/-- One assignment `result[key] = ...` of the loop: a source value that
is a truthy non-array non-RegExp object is merged recursively over
`target[key] || {}`, anything else overwrites. -/
def deepMergeKey (target result : List (String × JVal)) (k : String) :
    JVal → List (String × JVal)
  | .vobj sfields =>
    setKey result k
      (.vobj (deepMergeAux (targetFields target k) (targetFields target k) sfields))
  | sv => setKey result k sv
end

/-- `deepMerge(target, source)` from the source. -/
def deepMerge (target source : List (String × JVal)) :
    List (String × JVal) :=
  deepMergeAux target target source

/-- The `defaults` object of `llmSpiderPlugin` (src/index.js lines
35-120), with the four block-request RegExp literals and the two hook
functions as opaque tags. -/
def defaultsJ : List (String × JVal) :=
  [("enabled", .vbool true),
   ("routes", .vundef),
   ("crawl", .vobj
     [("enabled", .vbool false),
      ("seeds", .varr [.vstr "/"]),
      ("maxDepth", .vnum 2),
      ("maxPages", .vnum 50),
      ("concurrency", .vnum 3),
      ("stripQuery", .vbool true)]),
   ("exclude", .varr [.vstr "/login", .vstr "/admin", .vstr "/account"]),
   ("render", .vobj
     [("waitUntil", .vstr "networkidle2"),
      ("timeoutMs", .vnum 30000),
      ("waitForSelector", .vnull),
      ("postLoadDelayMs", .vnum 0),
      ("blockRequests", .varr [.vregexp 0, .vregexp 1, .vregexp 2, .vregexp 3]),
      ("launchOptions", .vobj [("headless", .vstr "new")]),
      ("beforeGoto", .vfun 0),
      ("beforeExtract", .vfun 1)]),
   ("extract", .vobj
     [("mainSelector", .varr [.vstr "main", .vstr "#main-content", .vstr "[data-main]"]),
      ("removeSelectors", .varr
        [.vstr "script", .vstr "style", .vstr "noscript", .vstr "nav",
         .vstr "header", .vstr "footer", .vstr "svg", .vstr "iframe",
         .vstr "[role=\x27alert\x27]", .vstr ".cookie", .vstr ".cookie-banner",
         .vstr ".modal"])]),
   ("markdown", .vobj
     [("addFrontmatter", .vbool true),
      ("turndown", .vobj
        [("headingStyle", .vstr "atx"),
         ("codeBlockStyle", .vstr "fenced"),
         ("emDelimiter", .vstr "_")])]),
   ("output", .vobj
     [("mode", .vstr "sibling"),
      ("subdir", .vstr "ai"),
      ("llmsTxtFileName", .vstr "llms.txt"),
      ("llmsTitle", .vnull),
      ("llmsSummary", .vstr "LLM-friendly index of important pages and their Markdown equivalents."),
      ("sort", .vbool true)]),
   ("logLevel", .vstr "info")]

/-- Second-level lookup inside an object-valued option. -/
def getObjKey : Option JVal → String → Option JVal
  | some (.vobj fs), k => List.lookup k fs
  | _, _ => none

/-- A user options object overriding every array-valued option the
claim lists: a non-empty `exclude`, nested `crawl.seeds`,
`extract.removeSelectors` (empty!), `extract.mainSelector` and
`render.blockRequests`. -/
def userC9 : List (String × JVal) :=
  [("exclude", .varr [.vstr "/x"]),
   ("crawl", .vobj [("seeds", .varr [.vstr "/a"])]),
   ("extract", .vobj
     [("removeSelectors", .varr []),
      ("mainSelector", .varr [.vstr "#app"])]),
   ("render", .vobj [("blockRequests", .varr [.vstr "x.com"])])]

/-! ### Spec-side definition of the output-path mapping (spec §4.5)

For the refinement claim about the mapper a second definition follows
the words of the spec: route `/` maps to `index.html.md`; a route
ending in `/` maps to (route minus its leading slash) + `index.html.md`;
any other route maps to (route minus its leading slash) + `.md`; subdir
layout prefixes the whole result with the configured subdirectory. -/

/-- The mapping as worded by the spec (sibling layout). -/
def outputPathSpec (route : String) : String :=
  let minusLeading := if pfx "/" route.data then drop1 route else route
  if route = "/" then "index.html.md"
  else if route.data.getLast? = some '/' then minusLeading ++ "index.html.md"
  else minusLeading ++ ".md"

/-- The mapping as worded by the spec, with the layout argument. -/
def outputPathSpecL : OutputMode → String → String → String
  | .sibling, _, route => outputPathSpec route
  | .subdir, name, route => name ++ "/" ++ outputPathSpec route

/-! ### Concrete run scenarios used by the theorems -/

/-- A page environment where every capture succeeds, pages have no
title element and no links. -/
def envPlain : PageEnv :=
  { titleText := fun _ => "", links := fun _ => [], ok := fun _ => true }

/-- Crawl run with two seeds, a page cap of 1 and concurrency 2. -/
def oTwoSeedsCap1 (conc : Nat) : SpiderOptions :=
  { crawl := { enabled := true, seeds := ["/a", "/b"], maxDepth := 2,
               maxPages := 1, concurrency := conc, stripQuery := true }
    exclude := [] }

/-- Events of a batch whose two members both commit, in dispatch order. -/
def schTwo : List (List Ev) := [[.commit 0, .patch 0, .commit 1, .patch 1]]

/-- Events of a batch with a single committing member. -/
def schOne : List (List Ev) := [[.commit 0, .patch 0]]

/-- Crawl run exhibiting a mixed-depth batch: three seeds at depth 0,
`/a` links to `/x`, `/x` links to `/y`, depth cap 1, concurrency 2. -/
def oMixed : SpiderOptions :=
  { crawl := { enabled := true, seeds := ["/a", "/b", "/c"], maxDepth := 1,
               maxPages := 50, concurrency := 2, stripQuery := true }
    exclude := [] }

/-- The environment of the mixed-depth scenario. -/
def envMixed : PageEnv :=
  { titleText := fun _ => ""
    links := fun r => if r = "/a" then ["/x"] else if r = "/x" then ["/y"] else []
    ok := fun _ => true }

/-- Schedule of the mixed-depth scenario: in the second batch both
members commit before either patch loop runs, so the depth-0 member
`/c` patches the link harvested by the depth-1 member `/x`. -/
def schMixed : List (List Ev) :=
  [[.commit 0, .patch 0, .commit 1, .patch 1],
   [.commit 0, .commit 1, .patch 0, .patch 1],
   [.commit 0, .patch 0]]

/-- Explicit run over three routes. -/
def oThree : SpiderOptions :=
  { routes := some [{ path := "/a" }, { path := "/b" }, { path := "/c" }]
    exclude := [] }

/-- Environment where the capture of `/b` fails and every page carries
a title element. -/
def envFailB : PageEnv :=
  { titleText := fun r => "T" ++ r, links := fun _ => [], ok := fun r => r ≠ "/b" }

/-- Serial schedule for a three-member batch. -/
def schThree : List (List Ev) :=
  [[.commit 0, .patch 0, .commit 1, .patch 1, .commit 2, .patch 2]]

/-- Explicit run whose single declared route fails normalization. -/
def oBadRoute : SpiderOptions :=
  { routes := some [{ path := "mailto:x" }], exclude := [] }

/-- Explicit run of two routes with `/b` excluded by a literal rule. -/
def oExcl : SpiderOptions :=
  { routes := some [{ path := "/a" }, { path := "/b" }]
    exclude := [.lit "/b"] }

/-- Crawl run whose only seed fails to capture although it has links:
no harvested entry may appear. -/
def oFailCrawl : SpiderOptions :=
  { crawl := { enabled := true, seeds := ["/a"], maxDepth := 2,
               maxPages := 50, concurrency := 2, stripQuery := true }
    exclude := [] }

/-- Environment where every capture fails and `/a` links to `/z`. -/
def envAllFail : PageEnv :=
  { titleText := fun _ => ""
    links := fun r => if r = "/a" then ["/z"] else []
    ok := fun _ => false }

/-- Schedule of a batch whose single member fails: only its patch loop
runs. -/
def schFail : List (List Ev) := [[.patch 0]]

/-- The same options with only the crawl concurrency replaced. -/
def setConc (o : SpiderOptions) (c : Nat) : SpiderOptions :=
  { o with crawl := { o.crawl with concurrency := c } }

/-- Crawl run over two seeds `/b`, `/a` with a cap that never binds. -/
def oBA : SpiderOptions :=
  { crawl := { enabled := true, seeds := ["/b", "/a"], maxDepth := 2,
               maxPages := 50, concurrency := 1, stripQuery := true }
    exclude := [] }

/-- Two serial single-member batches. -/
def schSeq2 : List (List Ev) := [[.commit 0, .patch 0], [.commit 0, .patch 0]]

/-- One batch of two members completing in reverse dispatch order. -/
def schRev : List (List Ev) := [[.commit 1, .patch 1, .commit 0, .patch 0]]

/-- The standing state invariant: the visited set and the captured
routes are duplicate-free, and every captured route was visited. -/
def StInv (st : SpiderState) : Prop :=
  st.visited.Nodup ∧ (st.captured.map (·.route)).Nodup ∧
    ∀ p ∈ st.captured, p.route ∈ st.visited

/-- A member that entered `captureOne` past the guards (and so was
added to the visited set). -/
def activeM (m : BatchMember) : Prop :=
  m.status = .activeOk ∨ m.status = .activeFail

instance (m : BatchMember) : Decidable (activeM m) := by
  unfold activeM; infer_instance

/-! ## Theorems -/

/-- Classification produces one member per batch entry. -/
theorem classify_snd_length (rc : RunCfg) (env : PageEnv) (pre : Nat) :
    ∀ (batch : List (String × Int)) (v : List String),
      (classify rc env pre v batch).2.length = batch.length := by
  intro batch
  induction batch with
  | nil => intro v; simp [classify]
  | cons m rest ih =>
    intro v
    simp only [classify]
    exact congrArg Nat.succ (ih _)

/-- One classification step only appends to the visited set. -/
theorem classifyOne_fst (rc : RunCfg) (env : PageEnv) (pre : Nat)
    (v : List String) (e : String × Int) :
    ∃ ext, (classifyOne rc env pre v e).1 = v ++ ext := by
  unfold classifyOne
  split
  · exact ⟨[], by simp⟩
  · split
    · exact ⟨[], by simp⟩
    · split
      · exact ⟨[], by simp⟩
      · split
        · exact ⟨[], by simp⟩
        · exact ⟨[e.1], rfl⟩

/-- Classification only appends to the visited set. -/
theorem classify_fst_append (rc : RunCfg) (env : PageEnv) (pre : Nat) :
    ∀ (batch : List (String × Int)) (v : List String),
      ∃ ext, (classify rc env pre v batch).1 = v ++ ext := by
  intro batch
  induction batch with
  | nil => intro v; exact ⟨[], by simp [classify]⟩
  | cons m rest ih =>
    intro v
    simp only [classify]
    unfold classifyOne
    split
    · exact ih v
    · split
      · exact ih v
      · split
        · exact ih v
        · split
          · exact ih v
          · obtain ⟨ext, hext⟩ := ih (v ++ [m.1])
            exact ⟨[m.1] ++ ext, by simp [hext]⟩

/-- Facts about every classified member: a successful member passed the
exclusion, page-cap and success checks; a member that entered
`captureOne` was not previously visited and is in the final visited
set; every member corresponds to a batch entry. -/
theorem classify_mem_facts (rc : RunCfg) (env : PageEnv) (pre : Nat) :
    ∀ (batch : List (String × Int)) (v : List String) (m : BatchMember),
      m ∈ (classify rc env pre v batch).2 →
      (m.status = .activeOk →
        isExcluded rc.exclude m.route = false ∧ env.ok m.route = true ∧ pre < rc.maxPages) ∧
      (activeM m → m.route ∉ v ∧ m.route ∈ (classify rc env pre v batch).1) ∧
      (∃ e ∈ batch, m.route = e.1 ∧ m.depth = e.2) := by
  intro batch
  induction batch with
  | nil => intro v m hm; simp [classify] at hm
  | cons e rest ih =>
    intro v m hm
    simp only [classify, List.mem_cons] at hm ⊢
    rcases hm with hm | hm
    · subst hm
      unfold classifyOne
      split
      · refine ⟨by simp [MStatus], by simp [activeM, MStatus], ⟨e, by simp⟩⟩
      · split
        · refine ⟨by simp [MStatus], by simp [activeM, MStatus], ⟨e, by simp⟩⟩
        · split
          · refine ⟨by simp [MStatus], by simp [activeM, MStatus], ⟨e, by simp⟩⟩
          · split
            · refine ⟨by simp [MStatus], by simp [activeM, MStatus], ⟨e, by simp⟩⟩
            · rename_i hskip hvis hexc hcap
              refine ⟨?_, ?_, ⟨e, by simp⟩⟩
              · intro hok
                simp only at hok
                constructor
                · simpa using hexc
                · refine ⟨?_, by omega⟩
                  by_cases h : env.ok e.1 = true
                  · exact h
                  · simp [h] at hok
              · intro _
                refine ⟨hvis, ?_⟩
                obtain ⟨ext, hext⟩ := classify_fst_append rc env pre rest (v ++ [e.1])
                simp only
                rw [hext]
                simp
    · have hfacts := ih (classifyOne rc env pre v e).1 m hm
      obtain ⟨ext, hext⟩ := classifyOne_fst rc env pre v e
      refine ⟨hfacts.1, ?_, ?_⟩
      · intro ha
        have h2 := hfacts.2.1 ha
        refine ⟨fun hv => h2.1 ?_, h2.2⟩
        rw [hext]
        simp [hv]
      · obtain ⟨e', he', h1, h2⟩ := hfacts.2.2
        exact ⟨e', Or.inr he', h1, h2⟩

/-- For routes with a leading slash the code mapper agrees with the
wording of the spec. -/
theorem routeToMdWebPath_eq_spec (r : String) (h : pfx "/" r.data = true) :
    routeToMdWebPath r = outputPathSpec r := by
  simp [routeToMdWebPath, outputPathSpec, h]

/-- C6: the output-path mapping is a pure function of route and layout:
`/` maps to `index.html.md`, a route ending in `/` maps to the route
minus its leading slash plus `index.html.md`, any other route to the
route minus its leading slash plus `.md`, and subdir layout prefixes
the result with the configured subdirectory name; verified both as the
general agreement of `routeToMdWebPath`/`mdRelPathFor` with the rule as
worded in the spec (for normalized routes, which carry a leading
slash), and on the eight concrete examples of the claim. -/
theorem C6_output_path_mapping :
    (∀ (mode : OutputMode) (sub r : String), pfx "/" r.data = true →
        mdRelPathFor mode sub r = outputPathSpecL mode sub r) ∧
    routeToMdWebPath "/" = "index.html.md" ∧
    routeToMdWebPath "/pricing" = "pricing.md" ∧
    routeToMdWebPath "/docs/" = "docs/index.html.md" ∧
    routeToMdWebPath "/docs/api" = "docs/api.md" ∧
    mdRelPathFor .subdir "ai" "/" = "ai/index.html.md" ∧
    mdRelPathFor .subdir "ai" "/pricing" = "ai/pricing.md" ∧
    mdRelPathFor .subdir "ai" "/docs/" = "ai/docs/index.html.md" ∧
    mdRelPathFor .subdir "ai" "/docs/api" = "ai/docs/api.md" := by
  refine ⟨?_, by decide, by decide, by decide, by decide,
    by decide, by decide, by decide, by decide⟩
  intro mode sub r h
  cases mode <;>
    simp [mdRelPathFor, outputPathSpecL, routeToMdWebPath_eq_spec r h]

/-- Witness for the universally quantified part of C6. -/
theorem C6_output_path_mapping_witness :
    mdRelPathFor .subdir "ai" "/pricing" = outputPathSpecL .subdir "ai" "/pricing" :=
  C6_output_path_mapping.1 .subdir "ai" "/pricing" (by decide)

/-- C10: an explicitly declared route whose path fails normalization is
silently replaced by the root route `"/"` (the `|| "/"` fallback of
line 234), so the queue is seeded with `"/"` and the run can produce a
captured page for the root.  The listed inputs are rejected by
`normalizeRoute`, and the concrete run with the single declared route
`mailto:x` captures exactly the root. -/
theorem C10_bad_route_falls_back_to_root :
    (∀ r : RouteSpecIn, normalizeRoute true r.path = none →
        (resolveRouteSpec r).path = "/") ∧
    normalizeRoute true "" = none ∧
    normalizeRoute true "#frag" = none ∧
    normalizeRoute true "?q=1" = none ∧
    normalizeRoute true "mailto:a@b" = none ∧
    normalizeRoute true "tel:123" = none ∧
    normalizeRoute true "javascript:void(0)" = none ∧
    normalizeRoute true "http://example.com/a" = none ∧
    normalizeRoute true "https://example.com/a" = none ∧
    initQueue oBadRoute (resolveRouteDefs oBadRoute) = [("/", 0)] ∧
    (runSpider oBadRoute envFailB schOne 5).captured.map (·.route) = ["/"] := by
  refine ⟨?_, by decide, by decide, by decide, by decide, by decide,
    by decide, by decide, by decide, by decide, by decide⟩
  intro r h
  simp [resolveRouteSpec, h, jsOrS]

/-- Witness for the universally quantified part of C10. -/
theorem C10_bad_route_falls_back_to_root_witness :
    (resolveRouteSpec { path := "mailto:x" }).path = "/" :=
  C10_bad_route_falls_back_to_root.1 { path := "mailto:x" } (by decide)

/-- The classified member always carries the route of its batch entry. -/
theorem classifyOne_route (rc : RunCfg) (env : PageEnv) (pre : Nat)
    (v : List String) (e : String × Int) :
    (classifyOne rc env pre v e).2.route = e.1 := by
  unfold classifyOne
  split
  · rfl
  · split
    · rfl
    · split
      · rfl
      · split
        · rfl
        · rfl

/-- A member that entered `captureOne` was appended to the visited set
by its own prefix. -/
theorem classifyOne_active (rc : RunCfg) (env : PageEnv) (pre : Nat)
    (v : List String) (e : String × Int)
    (h : activeM (classifyOne rc env pre v e).2) :
    (classifyOne rc env pre v e).1 = v ++ [e.1] := by
  unfold classifyOne at h ⊢
  by_cases h1 : rc.crawlEnabled = true ∧ rc.maxDepth < e.2
  · rw [if_pos h1] at h; simp [activeM] at h
  · rw [if_neg h1] at h ⊢
    by_cases h2 : e.1 ∈ v
    · rw [if_pos h2] at h; simp [activeM] at h
    · rw [if_neg h2] at h ⊢
      by_cases h3 : isExcluded rc.exclude e.1 = true
      · rw [if_pos h3] at h; simp [activeM] at h
      · rw [if_neg h3] at h ⊢
        by_cases h4 : rc.maxPages ≤ pre
        · rw [if_pos h4] at h; simp [activeM] at h
        · rw [if_neg h4]

/-- One classification step keeps the visited set duplicate-free. -/
theorem classifyOne_fst_nodup (rc : RunCfg) (env : PageEnv) (pre : Nat)
    (v : List String) (e : String × Int) (hv : v.Nodup) :
    (classifyOne rc env pre v e).1.Nodup := by
  unfold classifyOne
  split
  · exact hv
  · split
    · exact hv
    · split
      · exact hv
      · split
        · exact hv
        · rename_i h1 hvis hexc hcap
          simp only
          rw [List.nodup_append]
          exact ⟨hv, List.nodup_singleton _, by simpa using hvis⟩

/-- Classification keeps the visited set duplicate-free. -/
theorem classify_fst_nodup (rc : RunCfg) (env : PageEnv) (pre : Nat) :
    ∀ (batch : List (String × Int)) (v : List String), v.Nodup →
      (classify rc env pre v batch).1.Nodup := by
  intro batch
  induction batch with
  | nil => intro v hv; exact hv
  | cons e rest ih =>
    intro v hv
    simp only [classify]
    exact ih _ (classifyOne_fst_nodup rc env pre v e hv)

/-- Two distinct members that both entered `captureOne` carry distinct
routes: the later prefix saw the earlier route in the visited set. -/
theorem classify_pairwise (rc : RunCfg) (env : PageEnv) (pre : Nat) :
    ∀ (batch : List (String × Int)) (v : List String),
      (classify rc env pre v batch).2.Pairwise
        (fun a b => activeM a → activeM b → a.route ≠ b.route) := by
  intro batch
  induction batch with
  | nil => intro v; simp [classify]
  | cons e rest ih =>
    intro v
    simp only [classify]
    refine List.Pairwise.cons ?_ (ih _)
    intro b hb ha hab
    have hv1 := classifyOne_active rc env pre v e ha
    have hroute := classifyOne_route rc env pre v e
    have hbfacts := (classify_mem_facts rc env pre rest _ b hb).2.1 hab
    rw [hv1] at hbfacts
    intro heq
    exact hbfacts.1 (by rw [← heq, hroute]; simp)

/-- The event phase does not touch the visited set. -/
theorem applyEv_visited (rc : RunCfg) (env : PageEnv)
    (members : List BatchMember) (a : P2) (ev : Ev) :
    (applyEv rc env members a ev).st.visited = a.st.visited := by
  cases ev with
  | commit i =>
    cases hmi : members[i]? with
    | none => simp [applyEv, hmi]
    | some m =>
      simp only [applyEv, hmi]
      split
      · simp [commitMember]
      · rfl
  | patch i =>
    cases hmi : members[i]? with
    | none => simp [applyEv, hmi]
    | some m =>
      simp only [applyEv, hmi]
      split
      · rfl
      · rfl

/-- The event phase does not touch the visited set (whole fold). -/
theorem foldEv_visited (rc : RunCfg) (env : PageEnv)
    (members : List BatchMember) :
    ∀ (evs : List Ev) (a : P2),
      (evs.foldl (applyEv rc env members) a).st.visited = a.st.visited := by
  intro evs
  induction evs with
  | nil => intro a; rfl
  | cons ev rest ih =>
    intro a
    rw [List.foldl_cons, ih, applyEv_visited]

/-- Every page present after one event was present before or is the
page of a member that committed successfully. -/
theorem applyEv_captured_mem (rc : RunCfg) (env : PageEnv)
    (members : List BatchMember) (a : P2) (ev : Ev) (p : CapturedPage)
    (hp : p ∈ (applyEv rc env members a ev).st.captured) :
    p ∈ a.st.captured ∨
      ∃ m ∈ members, m.status = .activeOk ∧ p = mkPage rc env m.route := by
  cases ev with
  | commit i =>
    cases hmi : members[i]? with
    | none => simp only [applyEv, hmi] at hp; exact Or.inl hp
    | some m =>
      simp only [applyEv, hmi] at hp
      split at hp
      · rename_i hcond
        simp only [commitMember, List.mem_append, List.mem_singleton] at hp
        rcases hp with hp | hp
        · exact Or.inl hp
        · exact Or.inr ⟨m, List.getElem?_mem hmi, hcond.1, hp⟩
      · exact Or.inl hp
  | patch i =>
    cases hmi : members[i]? with
    | none => simp only [applyEv, hmi] at hp; exact Or.inl hp
    | some m =>
      simp only [applyEv, hmi] at hp
      split at hp
      · exact Or.inl hp
      · exact Or.inl hp

/-- Every page present after the event phase was present before or is
the page of a member that committed successfully. -/
theorem foldEv_captured_mem (rc : RunCfg) (env : PageEnv)
    (members : List BatchMember) :
    ∀ (evs : List Ev) (a : P2) (p : CapturedPage),
      p ∈ (evs.foldl (applyEv rc env members) a).st.captured →
      p ∈ a.st.captured ∨
        ∃ m ∈ members, m.status = .activeOk ∧ p = mkPage rc env m.route := by
  intro evs
  induction evs with
  | nil => intro a p hp; exact Or.inl hp
  | cons ev rest ih =>
    intro a p hp
    rw [List.foldl_cons] at hp
    rcases ih _ p hp with h | h
    · exact applyEv_captured_mem rc env members a ev p h
    · exact Or.inr h

/-- Captured growth equals commit-mask growth: every effective commit
pushes exactly one page and registers exactly one member index. -/
theorem foldEv_count (rc : RunCfg) (env : PageEnv)
    (members : List BatchMember) :
    ∀ (evs : List Ev) (a : P2),
      (evs.foldl (applyEv rc env members) a).st.captured.length + a.done.length =
        a.st.captured.length + (evs.foldl (applyEv rc env members) a).done.length := by
  intro evs
  induction evs with
  | nil => intro a; simp
  | cons ev rest ih =>
    intro a
    rw [List.foldl_cons]
    have step :
        (applyEv rc env members a ev).st.captured.length + a.done.length =
          a.st.captured.length + (applyEv rc env members a ev).done.length := by
      cases ev with
      | commit i =>
        cases hmi : members[i]? with
        | none => simp [applyEv, hmi]
        | some m =>
          simp only [applyEv, hmi]
          split
          · simp [commitMember]; omega
          · rfl
      | patch i =>
        cases hmi : members[i]? with
        | none => simp [applyEv, hmi]
        | some m =>
          simp only [applyEv, hmi]
          split
          · rfl
          · rfl
    have tail := ih (applyEv rc env members a ev)
    omega

/-- The commit mask stays duplicate-free and within the batch bounds. -/
theorem foldEv_done_nodup (rc : RunCfg) (env : PageEnv)
    (members : List BatchMember) :
    ∀ (evs : List Ev) (a : P2),
      a.done.Nodup → (∀ i ∈ a.done, i < members.length) →
      (evs.foldl (applyEv rc env members) a).done.Nodup ∧
        ∀ i ∈ (evs.foldl (applyEv rc env members) a).done, i < members.length := by
  intro evs
  induction evs with
  | nil => intro a h1 h2; exact ⟨h1, h2⟩
  | cons ev rest ih =>
    intro a h1 h2
    rw [List.foldl_cons]
    have step : (applyEv rc env members a ev).done.Nodup ∧
        ∀ i ∈ (applyEv rc env members a ev).done, i < members.length := by
      cases ev with
      | commit i =>
        cases hmi : members[i]? with
        | none => simp only [applyEv, hmi]; exact ⟨h1, h2⟩
        | some m =>
          simp only [applyEv, hmi]
          split
          · rename_i hcond
            constructor
            · exact List.Nodup.cons hcond.2 h1
            · intro j hj
              rcases List.mem_cons.mp hj with hj | hj
              · subst hj
                have := List.getElem?_eq_some_iff.mp hmi
                exact this.1
              · exact h2 j hj
          · exact ⟨h1, h2⟩
      | patch i =>
        cases hmi : members[i]? with
        | none => simp only [applyEv, hmi]; exact ⟨h1, h2⟩
        | some m =>
          simp only [applyEv, hmi]
          split
          · exact ⟨h1, h2⟩
          · exact ⟨h1, h2⟩
    exact ih _ step.1 step.2

/-- The route of a synthesized captured page. -/
theorem mkPage_route (rc : RunCfg) (env : PageEnv) (r : String) :
    (mkPage rc env r).route = r := rfl

/-- Captured routes stay duplicate-free and inside the visited set
through the event phase, given that distinct successful members carry
distinct routes, every successful route is in the (fixed) visited set,
and not-yet-committed successful routes are uncaptured. -/
theorem foldEv_nodup (rc : RunCfg) (env : PageEnv)
    (members : List BatchMember) (vFix : List String)
    (Hpair : ∀ (i j : Nat) (mi mj : BatchMember),
      members[i]? = some mi → members[j]? = some mj →
      i ≠ j → mi.status = .activeOk → mj.status = .activeOk →
      mi.route ≠ mj.route)
    (Hvis : ∀ m ∈ members, m.status = .activeOk → m.route ∈ vFix) :
    ∀ (evs : List Ev) (a : P2),
      a.st.visited = vFix →
      (a.st.captured.map (·.route)).Nodup →
      (∀ p ∈ a.st.captured, p.route ∈ vFix) →
      (∀ (i : Nat) (mi : BatchMember),
        members[i]? = some mi → mi.status = .activeOk → i ∉ a.done →
        mi.route ∉ a.st.captured.map (·.route)) →
      ((evs.foldl (applyEv rc env members) a).st.captured.map (·.route)).Nodup ∧
        ∀ p ∈ (evs.foldl (applyEv rc env members) a).st.captured, p.route ∈ vFix := by
  intro evs
  induction evs with
  | nil => intro a _ h2 h3 _; exact ⟨h2, h3⟩
  | cons ev rest ih =>
    intro a hv h2 h3 h4
    rw [List.foldl_cons]
    have hv' : (applyEv rc env members a ev).st.visited = vFix := by
      rw [applyEv_visited]; exact hv
    cases ev with
    | patch i =>
      have hsame : (applyEv rc env members a (.patch i)).st.captured = a.st.captured ∧
          (applyEv rc env members a (.patch i)).done = a.done := by
        cases hmi : members[i]? with
        | none => simp [applyEv, hmi]
        | some m =>
          simp only [applyEv, hmi]
          split
          · exact ⟨rfl, rfl⟩
          · exact ⟨rfl, rfl⟩
      refine ih _ hv' ?_ ?_ ?_
      · rw [hsame.1]; exact h2
      · rw [hsame.1]; exact h3
      · intro i mi hmi hst hd
        rw [hsame.1]
        exact h4 i mi hmi hst (by rw [← hsame.2]; exact hd)
    | commit i =>
      cases hmi : members[i]? with
      | none =>
        have hsame : applyEv rc env members a (.commit i) = a := by
          simp [applyEv, hmi]
        rw [hsame]
        exact ih _ hv h2 h3 h4
      | some m =>
        by_cases hcond : m.status = .activeOk ∧ i ∉ a.done
        · have heq : applyEv rc env members a (.commit i) =
              { st := commitMember rc env a.st m.route,
                done := i :: a.done, patched := a.patched } := by
            simp [applyEv, hmi, hcond]
          rw [heq]
          refine ih _ ?_ ?_ ?_ ?_
          · simp [commitMember]; exact hv
          · simp only [commitMember, List.map_append, List.map_cons, List.map_nil]
            rw [List.nodup_append]
            refine ⟨h2, by simp, ?_⟩
            intro r hr
            simp only [List.map_cons, List.map_nil, List.mem_cons,
              List.not_mem_nil, or_false, mkPage_route]
            intro hrm
            subst hrm
            exact h4 i m hmi hcond.1 hcond.2 hr
          · intro p hp
            simp only [commitMember, List.mem_append, List.mem_singleton] at hp
            rcases hp with hp | hp
            · exact h3 p hp
            · subst hp
              rw [mkPage_route]
              exact Hvis m (List.getElem?_mem hmi) hcond.1
          · intro j mj hmj hst hd
            simp only [commitMember, List.map_append, List.map_cons,
              List.map_nil, List.mem_append, List.mem_cons,
              List.not_mem_nil, or_false, mkPage_route]
            rintro (hin | hin)
            · exact h4 j mj hmj hst (fun hj => hd (List.mem_cons_of_mem _ hj)) hin
            · have hji : j ≠ i := fun hji => hd (hji ▸ List.mem_cons_self _ _)
              exact Hpair j i mj m hmj hmi hji hst hcond.1 hin
        · have hsame : applyEv rc env members a (.commit i) = a := by
            simp only [applyEv, hmi]
            rw [if_neg hcond]
          rw [hsame]
          exact ih _ hv h2 h3 h4

/-- `runStep` unfolded to its classification and event phases. -/
theorem runStep_eq (rc : RunCfg) (env : PageEnv) (st : SpiderState)
    (evs : List Ev) :
    runStep rc env st evs =
      (evs.foldl (applyEv rc env (stepMembers rc env st))
        ⟨⟨(classify rc env st.captured.length st.visited
            ((st.queue.take rc.conc).map fun e => (e.1, if 0 ≤ e.2 then e.2 else 1))).1,
          st.captured, st.queue.drop rc.conc⟩, [], []⟩).st := rfl

/-- A duplicate-free list of naturals all below `n` has at most `n`
elements. -/
theorem nodup_bounded_length (d : List Nat) (n : Nat) (h1 : d.Nodup)
    (h2 : ∀ i ∈ d, i < n) : d.length ≤ n := by
  have hcard : d.toFinset.card = d.length := List.toFinset_card_of_nodup h1
  have hsub : d.toFinset ⊆ Finset.range n := by
    intro x hx
    rw [Finset.mem_range]
    exact h2 x (List.mem_toFinset.mp hx)
  have := Finset.card_le_card hsub
  rw [hcard, Finset.card_range] at this
  exact this

/-- The batch of one step holds at most `concurrency` members. -/
theorem stepMembers_length (rc : RunCfg) (env : PageEnv) (st : SpiderState) :
    (stepMembers rc env st).length ≤ rc.conc := by
  unfold stepMembers
  rw [classify_snd_length, List.length_map, List.length_take]
  omega

/-- One step grows the captured array by at most `concurrency` pages. -/
theorem runStep_len (rc : RunCfg) (env : PageEnv) (st : SpiderState)
    (evs : List Ev) :
    (runStep rc env st evs).captured.length ≤ st.captured.length + rc.conc := by
  rw [runStep_eq]
  have hcount := foldEv_count rc env (stepMembers rc env st) evs
    ⟨⟨(classify rc env st.captured.length st.visited
        ((st.queue.take rc.conc).map fun e => (e.1, if 0 ≤ e.2 then e.2 else 1))).1,
      st.captured, st.queue.drop rc.conc⟩, [], []⟩
  have hdone := foldEv_done_nodup rc env (stepMembers rc env st) evs
    ⟨⟨(classify rc env st.captured.length st.visited
        ((st.queue.take rc.conc).map fun e => (e.1, if 0 ≤ e.2 then e.2 else 1))).1,
      st.captured, st.queue.drop rc.conc⟩, [], []⟩
    (List.nodup_nil) (by intro i hi; simp at hi)
  have hlen := nodup_bounded_length _ _ hdone.1 hdone.2
  have hmem := stepMembers_length rc env st
  simp only [List.length_nil] at hcount
  omega

/-- Every page captured during one step was already captured, or passed
the exclusion, success and page-cap guards of its capture. -/
theorem runStep_captured_mem (rc : RunCfg) (env : PageEnv) (st : SpiderState)
    (evs : List Ev) (p : CapturedPage)
    (hp : p ∈ (runStep rc env st evs).captured) :
    p ∈ st.captured ∨
      (isExcluded rc.exclude p.route = false ∧ env.ok p.route = true ∧
        st.captured.length < rc.maxPages ∧ p = mkPage rc env p.route) := by
  rw [runStep_eq] at hp
  rcases foldEv_captured_mem rc env (stepMembers rc env st) evs _ p hp with h | ⟨m, hm, hst, hpe⟩
  · exact Or.inl h
  · right
    have hfacts := (classify_mem_facts rc env st.captured.length _ _ m hm).1 hst
    have hroute : p.route = m.route := by rw [hpe, mkPage_route]
    rw [hroute]
    exact ⟨hfacts.1, hfacts.2.1, hfacts.2.2, hpe⟩

/-- One step preserves the state invariant. -/
theorem runStep_StInv (rc : RunCfg) (env : PageEnv) (st : SpiderState)
    (evs : List Ev) (h : StInv st) : StInv (runStep rc env st evs) := by
  obtain ⟨hv, hc, hs⟩ := h
  set ms : List (String × Int) :=
    (st.queue.take rc.conc).map (fun e => (e.1, if 0 ≤ e.2 then e.2 else 1))
    with hmsdef
  have hms : stepMembers rc env st =
      (classify rc env st.captured.length st.visited ms).2 := rfl
  have hext' := classify_fst_append rc env st.captured.length ms st.visited
  obtain ⟨ext, hext⟩ := hext'
  have hpair : ∀ (i j : Nat) (mi mj : BatchMember),
      (stepMembers rc env st)[i]? = some mi →
      (stepMembers rc env st)[j]? = some mj →
      i ≠ j → mi.status = .activeOk → mj.status = .activeOk →
      mi.route ≠ mj.route := by
    intro i j mi mj hmi hmj hij hsti hstj
    have hp := classify_pairwise rc env st.captured.length ms st.visited
    rw [← hms, List.pairwise_iff_getElem] at hp
    obtain ⟨hilt, higet⟩ := List.getElem?_eq_some_iff.mp hmi
    obtain ⟨hjlt, hjget⟩ := List.getElem?_eq_some_iff.mp hmj
    rcases Nat.lt_or_ge i j with hlt | hge
    · have := hp i j hilt hjlt hlt
      rw [higet, hjget] at this
      exact this (Or.inl hsti) (Or.inl hstj)
    · have hjj : j < i := by omega
      have := hp j i hjlt hilt hjj
      rw [higet, hjget] at this
      exact (this (Or.inl hstj) (Or.inl hsti)).symm
  have hvis : ∀ m ∈ stepMembers rc env st, m.status = .activeOk →
      m.route ∈ (classify rc env st.captured.length st.visited ms).1 := by
    intro m hm hst
    exact ((classify_mem_facts rc env st.captured.length ms st.visited m
      (hms ▸ hm)).2.1 (Or.inl hst)).2
  have hfold := foldEv_nodup rc env (stepMembers rc env st)
    (classify rc env st.captured.length st.visited ms).1
    hpair hvis evs
    ⟨⟨(classify rc env st.captured.length st.visited ms).1,
      st.captured, st.queue.drop rc.conc⟩, [], []⟩
    rfl hc
    (by
      intro p hp
      rw [hext]
      exact List.mem_append_left _ (hs p hp))
    (by
      intro i mi hmi hst _
      intro hin
      have hfr := ((classify_mem_facts rc env st.captured.length ms st.visited mi
        (hms ▸ List.getElem?_mem hmi)).2.1 (Or.inl hst)).1
      simp only [List.mem_map] at hin
      obtain ⟨p, hp, hpr⟩ := hin
      exact hfr (hpr ▸ hs p hp))
  refine ⟨?_, ?_, ?_⟩
  · rw [runStep_eq]
    simp only [foldEv_visited]
    exact classify_fst_nodup rc env st.captured.length ms st.visited hv
  · rw [runStep_eq]
    exact hfold.1
  · intro p hp
    rw [runStep_eq] at hp ⊢
    simp only [foldEv_visited]
    exact hfold.2 p hp

/-- The loop preserves the state invariant. -/
theorem runLoop_StInv (rc : RunCfg) (env : PageEnv) :
    ∀ (fuel : Nat) (sched : List (List Ev)) (st : SpiderState),
      StInv st → StInv (runLoop rc env fuel sched st) := by
  intro fuel
  induction fuel with
  | zero => intro sched st h; exact h
  | succ n ih =>
    intro sched st h
    rw [runLoop]
    split
    · exact ih _ _ (runStep_StInv rc env st _ h)
    · exact h

/-- Pages captured by the loop were captured before the loop or passed
their capture guards. -/
theorem runLoop_captured_mem (rc : RunCfg) (env : PageEnv) :
    ∀ (fuel : Nat) (sched : List (List Ev)) (st : SpiderState)
      (p : CapturedPage), p ∈ (runLoop rc env fuel sched st).captured →
      p ∈ st.captured ∨
        (isExcluded rc.exclude p.route = false ∧ env.ok p.route = true ∧
          p = mkPage rc env p.route) := by
  intro fuel
  induction fuel with
  | zero => intro sched st p hp; exact Or.inl hp
  | succ n ih =>
    intro sched st p hp
    rw [runLoop] at hp
    split at hp
    · rcases ih _ _ p hp with h | h
      · rcases runStep_captured_mem rc env st _ p h with h' | h'
        · exact Or.inl h'
        · exact Or.inr ⟨h'.1, h'.2.1, h'.2.2.2⟩
      · exact Or.inr h
    · exact Or.inl hp

/-- The loop never pushes the captured count past
`maxPages - 1 + concurrency`. -/
theorem runLoop_len (rc : RunCfg) (env : PageEnv) :
    ∀ (fuel : Nat) (sched : List (List Ev)) (st : SpiderState),
      (runLoop rc env fuel sched st).captured.length ≤
        max st.captured.length (rc.maxPages - 1 + rc.conc) := by
  intro fuel
  induction fuel with
  | zero => intro sched st; exact Nat.le_max_left _ _
  | succ n ih =>
    intro sched st
    rw [runLoop]
    split
    · rename_i hguard
      have hstep := runStep_len rc env st (sched.headD [])
      have hrec := ih sched.tail (runStep rc env st (sched.headD []))
      have : (runStep rc env st (sched.headD [])).captured.length ≤
          rc.maxPages - 1 + rc.conc := by omega
      omega
    · exact Nat.le_max_left _ _

/-- With concurrency arbitrary, a run exceeds the page cap by less than
one batch; the cap holds exactly when concurrency is 1. -/
theorem runSpider_len (o : SpiderOptions) (env : PageEnv)
    (sched : List (List Ev)) (fuel : Nat) :
    (runSpider o env sched fuel).captured.length ≤
      (mkRunCfg o).maxPages - 1 + (mkRunCfg o).conc := by
  have := runLoop_len (mkRunCfg o) env fuel sched
    ⟨[], [], initQueue o (resolveRouteDefs o)⟩
  simpa [runSpider] using this

/-- One classification step grows the visited set by at most one. -/
theorem classifyOne_fst_length (rc : RunCfg) (env : PageEnv) (pre : Nat)
    (v : List String) (e : String × Int) :
    (classifyOne rc env pre v e).1.length ≤ v.length + 1 := by
  unfold classifyOne
  split
  · simp
  · split
    · simp
    · split
      · simp
      · split
        · simp
        · simp

/-- Classification grows the visited set by at most the batch size. -/
theorem classify_fst_length (rc : RunCfg) (env : PageEnv) (pre : Nat) :
    ∀ (batch : List (String × Int)) (v : List String),
      (classify rc env pre v batch).1.length ≤ v.length + batch.length := by
  intro batch
  induction batch with
  | nil => intro v; simp [classify]
  | cons e rest ih =>
    intro v
    simp only [classify, List.length_cons]
    have h1 := classifyOne_fst_length rc env pre v e
    have h2 := ih (classifyOne rc env pre v e).1
    omega

/-- Without crawling the event phase never changes the queue length
(patching is a map, and failed or successful commits harvest nothing). -/
theorem foldEv_queue_len_noCrawl (rc : RunCfg) (env : PageEnv)
    (members : List BatchMember) (hcr : rc.crawlEnabled = false) :
    ∀ (evs : List Ev) (a : P2),
      (evs.foldl (applyEv rc env members) a).st.queue.length =
        a.st.queue.length := by
  intro evs
  induction evs with
  | nil => intro a; rfl
  | cons ev rest ih =>
    intro a
    rw [List.foldl_cons, ih]
    cases ev with
    | commit i =>
      cases hmi : members[i]? with
      | none => simp [applyEv, hmi]
      | some m =>
        simp only [applyEv, hmi]
        split
        · simp [commitMember, hcr]
        · rfl
    | patch i =>
      cases hmi : members[i]? with
      | none => simp [applyEv, hmi]
      | some m =>
        simp only [applyEv, hmi]
        split
        · simp [patchAll]
        · rfl

/-- Without crawling, one step cannot grow visited-plus-queue. -/
theorem runStep_visited_queue (rc : RunCfg) (env : PageEnv)
    (st : SpiderState) (evs : List Ev) (hcr : rc.crawlEnabled = false) :
    (runStep rc env st evs).visited.length +
        (runStep rc env st evs).queue.length ≤
      st.visited.length + st.queue.length := by
  rw [runStep_eq]
  rw [foldEv_queue_len_noCrawl rc env _ hcr]
  simp only [foldEv_visited]
  have h1 := classify_fst_length rc env st.captured.length
    ((st.queue.take rc.conc).map fun e => (e.1, if 0 ≤ e.2 then e.2 else 1))
    st.visited
  simp only [List.length_map, List.length_take] at h1
  simp only [List.length_drop]
  omega

/-- Without crawling, the loop cannot grow visited-plus-queue. -/
theorem runLoop_visited_queue (rc : RunCfg) (env : PageEnv)
    (hcr : rc.crawlEnabled = false) :
    ∀ (fuel : Nat) (sched : List (List Ev)) (st : SpiderState),
      (runLoop rc env fuel sched st).visited.length +
          (runLoop rc env fuel sched st).queue.length ≤
        st.visited.length + st.queue.length := by
  intro fuel
  induction fuel with
  | zero => intro sched st; exact le_refl _
  | succ n ih =>
    intro sched st
    rw [runLoop]
    split
    · have h1 := ih sched.tail (runStep rc env st (sched.headD []))
      have h2 := runStep_visited_queue rc env st (sched.headD []) hcr
      omega
    · exact le_refl _

/-- A duplicate-free list contained in another list is no longer. -/
theorem nodup_subset_length (d v : List String) (hd : d.Nodup)
    (hsub : ∀ x ∈ d, x ∈ v) : d.length ≤ v.length := by
  have h1 : d.toFinset.card = d.length := List.toFinset_card_of_nodup hd
  have h2 : d.toFinset ⊆ v.toFinset := by
    intro x hx
    rw [List.mem_toFinset] at hx ⊢
    exact hsub x hx
  have h3 := Finset.card_le_card h2
  have h4 := v.toFinset_card_le
  omega

/-- With no pages allowed the loop refuses to run. -/
theorem runLoop_no_pages (rc : RunCfg) (env : PageEnv)
    (hmp : rc.maxPages = 0) :
    ∀ (fuel : Nat) (sched : List (List Ev)) (st : SpiderState),
      runLoop rc env fuel sched st = st := by
  intro fuel
  cases fuel with
  | zero => intro sched st; rfl
  | succ n =>
    intro sched st
    rw [runLoop, if_neg]
    simp [hmp]

/-- In explicit mode the page cap is never exceeded: the queue never
grows, so the visited set (which bounds the duplicate-free captured
routes) stays within the seeded queue length, which is the cap. -/
theorem runSpider_len_noCrawl (o : SpiderOptions) (env : PageEnv)
    (sched : List (List Ev)) (fuel : Nat) (h : o.crawl.enabled = false) :
    (runSpider o env sched fuel).captured.length ≤ (mkRunCfg o).maxPages := by
  have hcr : (mkRunCfg o).crawlEnabled = false := h
  have hmp : (mkRunCfg o).maxPages = (initQueue o (resolveRouteDefs o)).length := by
    simp [mkRunCfg, h]
  have hInv := runLoop_StInv (mkRunCfg o) env fuel sched
    ⟨[], [], initQueue o (resolveRouteDefs o)⟩ ⟨List.nodup_nil, by simp, by simp⟩
  have hvq := runLoop_visited_queue (mkRunCfg o) env hcr fuel sched
    ⟨[], [], initQueue o (resolveRouteDefs o)⟩
  simp only [List.length_nil] at hvq
  have hlen : (runSpider o env sched fuel).captured.length =
      ((runSpider o env sched fuel).captured.map (·.route)).length := by
    rw [List.length_map]
  rw [hlen, hmp]
  have hsub := nodup_subset_length
    ((runSpider o env sched fuel).captured.map (·.route))
    (runSpider o env sched fuel).visited hInv.2.1
    (by
      intro x hx
      simp only [List.mem_map] at hx
      obtain ⟨p, hp, hpr⟩ := hx
      exact hpr ▸ hInv.2.2 p hp)
  have hrs : runSpider o env sched fuel =
      runLoop (mkRunCfg o) env fuel sched
        ⟨[], [], initQueue o (resolveRouteDefs o)⟩ := rfl
  rw [← hrs] at hvq
  omega

/-- C1 (counterexample): a crawl run with two seeds, `maxPages = 1` and
concurrency 2 captures two pages under a legal schedule: both captures
read `captured.length = 0` in their synchronous prefixes before either
commits, so the cap check passes for both and the captured count ends
at 2, exceeding the configured cap of 1. -/
theorem C1_counterexample :
    (mkRunCfg (oTwoSeedsCap1 2)).maxPages = 1 ∧
    schedValidB (mkRunCfg (oTwoSeedsCap1 2)) envPlain 5 schTwo
      ⟨[], [], initQueue (oTwoSeedsCap1 2) (resolveRouteDefs (oTwoSeedsCap1 2))⟩ = true ∧
    (runSpider (oTwoSeedsCap1 2) envPlain schTwo 5).captured.length = 2 :=
  ⟨by decide, by decide, by decide⟩

/-- C1 (amended): after every completed capture the captured count is
below `maxPages + concurrency` (overshoot bounded by one in-flight
batch); the stated bound `captured.length ≤ maxPages` does hold
whenever concurrency is 1, and always in explicit (non-crawl) mode. -/
theorem C1_page_cap_bound :
    (∀ (o : SpiderOptions) (env : PageEnv) (sched : List (List Ev)) (fuel : Nat),
      (runSpider o env sched fuel).captured.length ≤
        (mkRunCfg o).maxPages - 1 + (mkRunCfg o).conc) ∧
    (∀ (o : SpiderOptions) (env : PageEnv) (sched : List (List Ev)) (fuel : Nat),
      (mkRunCfg o).conc = 1 →
      (runSpider o env sched fuel).captured.length ≤ (mkRunCfg o).maxPages) ∧
    (∀ (o : SpiderOptions) (env : PageEnv) (sched : List (List Ev)) (fuel : Nat),
      o.crawl.enabled = false →
      (runSpider o env sched fuel).captured.length ≤ (mkRunCfg o).maxPages) := by
  refine ⟨?_, ?_, ?_⟩
  · intro o env sched fuel
    exact runSpider_len o env sched fuel
  · intro o env sched fuel hconc
    rcases Nat.eq_zero_or_pos (mkRunCfg o).maxPages with hmp | hmp
    · have := runLoop_no_pages (mkRunCfg o) env hmp fuel sched
        ⟨[], [], initQueue o (resolveRouteDefs o)⟩
      have hz : (runSpider o env sched fuel).captured.length = 0 := by
        simp [runSpider, this]
      omega
    · have := runSpider_len o env sched fuel
      omega
  · intro o env sched fuel h
    exact runSpider_len_noCrawl o env sched fuel h

/-- Witness for the hypothesis-bearing parts of the amended C1. -/
theorem C1_page_cap_bound_witness :
    (runSpider (oTwoSeedsCap1 1) envPlain schOne 5).captured.length ≤
        (mkRunCfg (oTwoSeedsCap1 1)).maxPages ∧
      (runSpider oThree envFailB schThree 5).captured.length ≤
        (mkRunCfg oThree).maxPages :=
  ⟨C1_page_cap_bound.2.1 (oTwoSeedsCap1 1) envPlain schOne 5 (by decide),
   C1_page_cap_bound.2.2 oThree envFailB schThree 5 (by decide)⟩

/-- C2: no captured page has an excluded route — the exclusion check at
the head of `captureOne` runs before any capture, regardless of whether
the route arrived as a declared route, a crawl seed, or a harvested
link, for every run, schedule and environment. -/
theorem C2_exclusion_completeness :
    ∀ (o : SpiderOptions) (env : PageEnv) (sched : List (List Ev)) (fuel : Nat)
      (p : CapturedPage), p ∈ (runSpider o env sched fuel).captured →
      isExcluded o.exclude p.route = false := by
  intro o env sched fuel p hp
  simp only [runSpider] at hp
  rcases runLoop_captured_mem (mkRunCfg o) env fuel sched _ p hp with h | h
  · simp at h
  · exact h.1

/-- Witness for C2 at a concrete run. -/
theorem C2_exclusion_completeness_witness :
    isExcluded oExcl.exclude (mkPage (mkRunCfg oExcl) envPlain "/a").route = false :=
  C2_exclusion_completeness oExcl envPlain schTwo 5 _ (by decide)

/-- C3: a failed capture is confined to its own capture operation: in
every run only routes whose guarded capture body succeeds contribute a
captured page (first conjunct); in the concrete three-route run where
`/b` fails, the run completes with exactly the two successful entries
in the index document; and in a crawl run whose only capture fails, no
harvested link is ever enqueued even though the page had links. -/
theorem C3_failure_isolation :
    (∀ (o : SpiderOptions) (env : PageEnv) (sched : List (List Ev)) (fuel : Nat)
      (p : CapturedPage), p ∈ (runSpider o env sched fuel).captured →
      env.ok p.route = true) ∧
    (runSpider oThree envFailB schThree 5).captured.map (·.route) = ["/a", "/c"] ∧
    buildLlms oThree (runSpider oThree envFailB schThree 5).captured =
      "# production\n\n> LLM-friendly index of important pages and their Markdown equivalents.\n\n## Pages\n\n- [T/a](a.md)\n- [T/c](c.md)\n\n" ∧
    (runSpider oFailCrawl envAllFail schFail 5).captured = [] ∧
    (runSpider oFailCrawl envAllFail schFail 5).queue = [] ∧
    (runSpider oFailCrawl envAllFail schFail 5).visited = ["/a"] := by
  refine ⟨?_, by decide, by decide, by decide, by decide, by decide⟩
  intro o env sched fuel p hp
  simp only [runSpider] at hp
  rcases runLoop_captured_mem (mkRunCfg o) env fuel sched _ p hp with h | h
  · simp at h
  · exact h.2.1

/-- Witness for the universally quantified part of C3. -/
theorem C3_failure_isolation_witness :
    envFailB.ok (mkPage (mkRunCfg oThree) envFailB "/a").route = true :=
  C3_failure_isolation.1 oThree envFailB schThree 5 _ (by decide)

/-- C4: in every run, under every schedule and environment, no route
appears twice among the captured pages; the visited set itself is
duplicate-free (each route enters it at most once, at dispatch time)
and every captured route is in it. -/
theorem C4_no_duplicates :
    ∀ (o : SpiderOptions) (env : PageEnv) (sched : List (List Ev)) (fuel : Nat),
      ((runSpider o env sched fuel).captured.map (·.route)).Nodup ∧
      (runSpider o env sched fuel).visited.Nodup ∧
      ∀ p ∈ (runSpider o env sched fuel).captured,
        p.route ∈ (runSpider o env sched fuel).visited := by
  intro o env sched fuel
  have h := runLoop_StInv (mkRunCfg o) env fuel sched
    ⟨[], [], initQueue o (resolveRouteDefs o)⟩ ⟨List.nodup_nil, by simp, by simp⟩
  exact ⟨h.2.1, h.1, h.2.2⟩

/-- Witness for C4, with the membership hypothesis discharged at a
concrete run that dispatches duplicate queue entries. -/
theorem C4_no_duplicates_witness :
    ((runSpider oThree envFailB schThree 5).captured.map (·.route)).Nodup ∧
      (mkPage (mkRunCfg oThree) envFailB "/a").route ∈
        (runSpider oThree envFailB schThree 5).visited := by
  have h := C4_no_duplicates oThree envFailB schThree 5
  exact ⟨h.1, h.2.2 _ (by decide)⟩

/-! ### Normalizer lemmas (claim C5) -/

/-- Equation: collapsing a slash in slash state drops it. -/
theorem collapseAux_slash_true (rest : List Char) :
    collapseAux true ('/' :: rest) = collapseAux true rest := by
  simp [collapseAux]

/-- Equation: collapsing a slash in plain state keeps one slash. -/
theorem collapseAux_slash_false (rest : List Char) :
    collapseAux false ('/' :: rest) = '/' :: collapseAux true rest := by
  simp [collapseAux]

/-- Equation: a non-slash character is kept and resets the state. -/
theorem collapseAux_ns (b : Bool) (c : Char) (rest : List Char)
    (hc : c ≠ '/') : collapseAux b (c :: rest) = c :: collapseAux false rest := by
  cases b <;> simp [collapseAux, hc]

/-- The slash collapser started in slash state never emits a leading
slash. -/
theorem collapseAux_true_head :
    ∀ l : List Char, (collapseAux true l).head? ≠ some '/' := by
  intro l
  induction l with
  | nil => simp [collapseAux]
  | cons c rest ih =>
    by_cases hc : c = '/'
    · rw [hc, collapseAux_slash_true]
      exact ih
    · rw [collapseAux_ns true c rest hc]
      simpa using hc

/-- `hasDouble` on a cons cell. -/
theorem hasDouble_cons (c : Char) (l : List Char) :
    hasDouble (c :: l) =
      ((c == '/') && (l.head? == some '/') || hasDouble l) := by
  cases l with
  | nil => simp [hasDouble]
  | cons x xs => rfl

/-- The collapser output contains no doubled slash. -/
theorem collapseAux_noDouble :
    ∀ (l : List Char) (b : Bool), hasDouble (collapseAux b l) = false := by
  intro l
  induction l with
  | nil => intro b; simp [collapseAux, hasDouble]
  | cons c rest ih =>
    intro b
    by_cases hc : c = '/'
    · subst hc
      cases b with
      | true => rw [collapseAux_slash_true]; exact ih true
      | false =>
        rw [collapseAux_slash_false, hasDouble_cons, ih true, Bool.or_false]
        have h1 := collapseAux_true_head rest
        cases hh : (collapseAux true rest).head? with
        | none => simp
        | some d =>
          rw [hh] at h1
          have hd : d ≠ '/' := fun hdd => h1 (by rw [hdd])
          simp [hd]
    · rw [collapseAux_ns b c rest hc, hasDouble_cons, ih false, Bool.or_false]
      simp [hc]

/-- A list with no doubled slash is a fixed point of the collapser (and
of the in-slash-state collapser when it does not start with a slash). -/
theorem collapseAux_id :
    ∀ l : List Char, hasDouble l = false →
      collapseAux false l = l ∧
        (l.head? ≠ some '/' → collapseAux true l = l) := by
  intro l
  induction l with
  | nil => intro _; exact ⟨rfl, fun _ => rfl⟩
  | cons c rest ih =>
    intro hnd
    rw [hasDouble_cons, Bool.or_eq_false_iff] at hnd
    have ihr := ih hnd.2
    by_cases hc : c = '/'
    · subst hc
      have hhead : rest.head? ≠ some '/' := by
        intro hh
        rw [hh] at hnd
        simp at hnd
      refine ⟨?_, ?_⟩
      · rw [collapseAux_slash_false, ihr.2 hhead]
      · intro hch
        simp at hch
    · refine ⟨?_, ?_⟩
      · rw [collapseAux_ns false c rest hc, ihr.1]
      · intro _
        rw [collapseAux_ns true c rest hc, ihr.1]

/-- Collapsing introduces no new characters. -/
theorem mem_collapseAux :
    ∀ (l : List Char) (b : Bool) (c : Char), c ∈ collapseAux b l → c ∈ l := by
  intro l
  induction l with
  | nil => intro b c hc; simpa [collapseAux] using hc
  | cons d rest ih =>
    intro b c hc
    by_cases hd : d = '/'
    · subst hd
      cases b with
      | true =>
        rw [collapseAux_slash_true] at hc
        exact List.mem_cons_of_mem _ (ih true c hc)
      | false =>
        rw [collapseAux_slash_false] at hc
        rcases List.mem_cons.mp hc with h | h
        · exact h ▸ List.mem_cons_self _ _
        · exact List.mem_cons_of_mem _ (ih true c h)
    · rw [collapseAux_ns b d rest hd] at hc
      rcases List.mem_cons.mp hc with h | h
      · exact h ▸ List.mem_cons_self _ _
      · exact List.mem_cons_of_mem _ (ih false c h)

/-- A list all of whose members satisfy `p` is its own `takeWhile`. -/
theorem takeWhile_eq_self (p : Char → Bool) :
    ∀ l : List Char, (∀ c ∈ l, p c = true) → l.takeWhile p = l := by
  intro l
  induction l with
  | nil => intro _; rfl
  | cons c rest ih =>
    intro h
    rw [List.takeWhile_cons, if_pos (h c (List.mem_cons_self _ _))]
    rw [ih fun d hd => h d (List.mem_cons_of_mem _ hd)]

/-- A prefix whose first character differs never matches. -/
theorem pfx_ne_head (p : String) (c0 : Char) (ps : List Char)
    (hp : p.data = c0 :: ps) (c : Char) (t : List Char)
    (hne : (c0 == c) = false) : pfx p (c :: t) = false := by
  unfold pfx
  rw [hp]
  simp [List.isPrefixOf, hne]

/-- A match of the `./` prefix forces the first two characters. -/
theorem pfx_dotslash (s2 : List Char) (hp : pfx "./" s2 = true) :
    ∃ t, s2 = '.' :: '/' :: t := by
  have hd : "./".data = ['.', '/'] := by decide
  match s2 with
  | [] => rw [pfx, hd] at hp; simp [List.isPrefixOf] at hp
  | [c] => rw [pfx, hd] at hp; simp [List.isPrefixOf] at hp
  | c :: d :: t =>
    rw [pfx, hd] at hp
    simp only [List.isPrefixOf, Bool.and_eq_true, beq_iff_eq] at hp
    exact ⟨t, by rw [← hp.1, ← hp.2.1]⟩

/-- The coerced string starts with a slash and adds no characters. -/
theorem slashify_shape (s2 : List Char) (h : s2 ≠ []) :
    ∃ t, slashify s2 = '/' :: t ∧ ∀ c ∈ t, c ∈ s2 := by
  unfold slashify
  split
  · rename_i hh
    match s2, hh with
    | c :: cs, hh =>
      simp only [List.head?_cons, Option.some.injEq] at hh
      subst hh
      exact ⟨cs, rfl, fun c hc => List.mem_cons_of_mem _ hc⟩
  · split
    · rename_i hh hp
      obtain ⟨t, rfl⟩ := pfx_dotslash s2 hp
      exact ⟨t, by simp, fun c hc =>
        List.mem_cons_of_mem _ (List.mem_cons_of_mem _ hc)⟩
    · exact ⟨s2, rfl, fun c hc => hc⟩

/-- Shape of the collapsed output: leading slash, nonempty, no doubled
slash, and members drawn from the slash or the pre-collapse tail. -/
theorem normout_props (sq : Bool) (t s2 : List Char)
    (hsub : ∀ c ∈ t, c ∈ s2)
    (hmem : ∀ c ∈ s2, c ≠ '#' ∧ (sq = true → c ≠ '?')) :
    (collapseAux false ('/' :: t)).head? = some '/' ∧
    collapseAux false ('/' :: t) ≠ [] ∧
    hasDouble (collapseAux false ('/' :: t)) = false ∧
    (∀ c ∈ collapseAux false ('/' :: t), c ≠ '#') ∧
    (sq = true → ∀ c ∈ collapseAux false ('/' :: t), c ≠ '?') := by
  refine ⟨by rw [collapseAux_slash_false]; rfl,
    by rw [collapseAux_slash_false]; simp,
    collapseAux_noDouble _ false, ?_, ?_⟩
  · intro c hc
    have hmm := mem_collapseAux _ _ _ hc
    rcases List.mem_cons.mp hmm with h | h
    · subst h; decide
    · exact (hmem c (hsub c h)).1
  · intro hsq c hc
    have hmm := mem_collapseAux _ _ _ hc
    rcases List.mem_cons.mp hmm with h | h
    · subst h; decide
    · exact (hmem c (hsub c h)).2 hsq

/-- Properties of every output of the normalizer tail. -/
theorem normTail_props (sq : Bool) (s0 l : List Char)
    (h : normTail sq s0 = some l) :
    l.head? = some '/' ∧ l ≠ [] ∧ hasDouble l = false ∧
      (∀ c ∈ l, c ≠ '#') ∧ (sq = true → ∀ c ∈ l, c ≠ '?') := by
  simp only [normTail] at h
  generalize hs2 :
    (if sq = true then (s0.takeWhile (· ≠ '#')).takeWhile (· ≠ '?')
     else s0.takeWhile (· ≠ '#')) = s2v at h
  have hmem : ∀ c ∈ s2v, c ≠ '#' ∧ (sq = true → c ≠ '?') := by
    intro c hc
    rw [← hs2] at hc
    cases hsq : sq with
    | true =>
      rw [hsq, if_pos rfl] at hc
      have h1 := List.mem_takeWhile_imp hc
      have h2 := (List.takeWhile_sublist _).subset hc
      have h3 := List.mem_takeWhile_imp h2
      exact ⟨by simpa using h3, fun _ => by simpa using h1⟩
    | false =>
      rw [hsq, if_neg (by simp)] at hc
      have h3 := List.mem_takeWhile_imp hc
      exact ⟨by simpa using h3, fun hcon => absurd hcon (by simp)⟩
  split at h
  · exact absurd h (by simp)
  · rename_i hne2
    simp only [Option.some.injEq] at h
    subst h
    obtain ⟨t, hsl, hsub⟩ := slashify_shape s2v hne2
    rw [collapseSlashes, hsl]
    exact normout_props sq t s2v hsub hmem

/-- Properties of every normalizer output: a leading slash, no doubled
slash, no hash, and (when queries are stripped) no question mark. -/
theorem normalizeRouteL_props (sq : Bool) (s l : List Char)
    (h : normalizeRouteL sq s = some l) :
    l.head? = some '/' ∧ l ≠ [] ∧ hasDouble l = false ∧
      (∀ c ∈ l, c ≠ '#') ∧ (sq = true → ∀ c ∈ l, c ≠ '?') := by
  simp only [normalizeRouteL] at h
  split at h
  · exact absurd h (by simp)
  · split at h
    · exact absurd h (by simp)
    · split at h
      · exact absurd h (by simp)
      · exact normTail_props sq _ l h

/-- Idempotence of the normalizer tail on a trim-stable output. -/
theorem normTail_self (sq : Bool) (t : List Char)
    (hnd : hasDouble ('/' :: t) = false)
    (hhash : ∀ c ∈ '/' :: t, c ≠ '#')
    (hq : sq = true → ∀ c ∈ '/' :: t, c ≠ '?') :
    normTail sq ('/' :: t) = some ('/' :: t) := by
  have e2 : ('/' :: t).takeWhile (· ≠ '#') = '/' :: t :=
    takeWhile_eq_self _ _ (fun c hc => by simpa using hhash c hc)
  have hcoll : collapseAux false ('/' :: t) = '/' :: t := (collapseAux_id _ hnd).1
  have hsl : slashify ('/' :: t) = '/' :: t := by
    simp [slashify]
  have hs2 : (if sq = true then ('/' :: t).takeWhile (· ≠ '?') else '/' :: t) =
      '/' :: t := by
    cases sq with
    | false => simp
    | true =>
      simp only [if_true]
      exact takeWhile_eq_self _ _ (fun c hc => by simpa using hq rfl c hc)
  simp only [normTail, e2, hs2]
  rw [if_neg (by simp), hsl, collapseSlashes, hcoll]

/-- Idempotence of the normalizer on outputs that are trim-stable. -/
theorem normalizeRouteL_idem (sq : Bool) (s l : List Char)
    (h : normalizeRouteL sq s = some l) (ht : jsTrimL l = l) :
    normalizeRouteL sq l = some l := by
  obtain ⟨hhead, hne, hnd, hhash, hq⟩ := normalizeRouteL_props sq s l h
  obtain ⟨t, rfl⟩ : ∃ t, l = '/' :: t := by
    cases l with
    | nil => simp at hhead
    | cons c cs =>
      simp only [List.head?_cons, Option.some.injEq] at hhead
      exact ⟨cs, by rw [hhead]⟩
  have hm1 : pfx "mailto:" ('/' :: t) = false :=
    pfx_ne_head "mailto:" 'm' "ailto:".data (by decide) '/' t (by decide)
  have hm2 : pfx "tel:" ('/' :: t) = false :=
    pfx_ne_head "tel:" 't' "el:".data (by decide) '/' t (by decide)
  have hm3 : pfx "javascript:" ('/' :: t) = false :=
    pfx_ne_head "javascript:" 'j' "avascript:".data (by decide) '/' t (by decide)
  have hm4 : pfx "http://" ('/' :: t) = false :=
    pfx_ne_head "http://" 'h' "ttp://".data (by decide) '/' t (by decide)
  have hm5 : pfx "https://" ('/' :: t) = false :=
    pfx_ne_head "https://" 'h' "ttps://".data (by decide) '/' t (by decide)
  unfold normalizeRouteL
  rw [if_neg (by simp)]
  rw [if_neg (by simp [hm1, hm2, hm3])]
  simp only [ht, hm4, hm5, Bool.or_self, Bool.false_eq_true, if_false]
  exact normTail_self sq t hnd hhash hq


/-- C5 (counterexample): route normalization is not idempotent as the
claim states it: stripping a `#` fragment (or `?` query) can leave
trailing whitespace, which only the second normalization trims away, so
`normalizeRoute("/a #x") = "/a "` while
`normalizeRoute(normalizeRoute("/a #x")) = "/a"`. -/
theorem C5_counterexample :
    normalizeRoute true "/a #x" = some "/a " ∧
    normalizeRoute true "/a " = some "/a" ∧
    (normalizeRoute true "/a #x").bind (normalizeRoute true) ≠
      normalizeRoute true "/a #x" :=
  ⟨by decide, by decide, by decide⟩

/-- C5 (amended): route normalization is idempotent for every input
string whose returned route key is stable under `trim` (no leading or
trailing whitespace — the only way a second pass can differ):
`normalizeRoute(normalizeRoute(s)) = normalizeRoute(s)` under the same
`stripQuery` configuration. -/
theorem C5_normalize_idempotent (sq : Bool) (s r : String)
    (h : normalizeRoute sq s = some r) (ht : trimS r = r) :
    normalizeRoute sq r = some r := by
  unfold normalizeRoute at h ⊢
  cases hl : normalizeRouteL sq s.data with
  | none => rw [hl] at h; simp at h
  | some l =>
    rw [hl] at h
    have h2 : (⟨l⟩ : String) = r := by simpa using h
    have hrl : r.data = l := by rw [← h2]
    have htl : jsTrimL l = l := by
      have hdt := congrArg String.data ht
      rw [← hrl]
      simpa [trimS] using hdt
    have hidem := normalizeRouteL_idem sq s.data l hl htl
    rw [hrl, hidem, ← h2]
    rfl

/-- Witness for the amended C5 at a concrete normalizing input. -/
theorem C5_normalize_idempotent_witness :
    normalizeRoute true "/abc" = some "/abc" :=
  C5_normalize_idempotent true "./abc" "/abc" (by decide) (by decide)

/-! ### Configuration-merge lemmas (claim C9) -/

/-- Looking up the key just set. -/
theorem lookup_setKey_self (r : List (String × JVal)) (k : String) (v : JVal) :
    List.lookup k (setKey r k v) = some v := by
  induction r with
  | nil => simp [setKey, List.lookup_cons]
  | cons kv rest ih =>
    obtain ⟨k1, v1⟩ := kv
    by_cases hk : k1 = k
    · subst hk
      simp [setKey, List.lookup_cons]
    · have hstep : setKey ((k1, v1) :: rest) k v = (k1, v1) :: setKey rest k v := by
        simp [setKey, hk]
      have hb : (k == k1) = false := beq_false_of_ne (fun h => hk h.symm)
      rw [hstep, List.lookup_cons]
      simp [hb, ih]

/-- Setting another key does not change a lookup. -/
theorem lookup_setKey_ne (r : List (String × JVal)) (k k1 : String)
    (v : JVal) (h : k1 ≠ k) :
    List.lookup k (setKey r k1 v) = List.lookup k r := by
  have hb : (k == k1) = false := beq_false_of_ne (fun hh => h hh.symm)
  induction r with
  | nil => simp [setKey, List.lookup_cons, hb]
  | cons kv rest ih =>
    obtain ⟨k2, v2⟩ := kv
    by_cases hk : k2 = k1
    · subst hk
      have hstep : setKey ((k2, v2) :: rest) k2 v = (k2, v) :: rest := by
        simp [setKey]
      rw [hstep]
      simp [List.lookup_cons, hb]
    · have hstep : setKey ((k2, v2) :: rest) k1 v = (k2, v2) :: setKey rest k1 v := by
        simp [setKey, hk]
      rw [hstep, List.lookup_cons, List.lookup_cons]
      cases hkb : (k == k2) with
      | true => rfl
      | false => exact ih

/-- Merging keys absent from the source does not change a lookup. -/
theorem lookup_deepMergeAux_notmem (k : String) :
    ∀ (src t r : List (String × JVal)),
      k ∉ src.map Prod.fst →
      List.lookup k (deepMergeAux t r src) = List.lookup k r := by
  intro src
  induction src with
  | nil => intro t r _; rfl
  | cons kv rest ih =>
    obtain ⟨k1, sv⟩ := kv
    intro t r hk
    simp only [List.map_cons, List.mem_cons, not_or] at hk
    rw [deepMergeAux, ih _ _ hk.2]
    cases sv <;>
      exact lookup_setKey_ne _ _ _ _ (fun h => hk.1 h.symm)

/-- An array value in the source survives the merge unchanged. -/
theorem deepMergeAux_array (k : String) (xs : List JVal) :
    ∀ (src t r : List (String × JVal)),
      (src.map Prod.fst).Nodup →
      List.lookup k src = some (.varr xs) →
      List.lookup k (deepMergeAux t r src) = some (.varr xs) := by
  intro src
  induction src with
  | nil => intro t r _ h; simp [List.lookup] at h
  | cons kv rest ih =>
    obtain ⟨k1, sv⟩ := kv
    intro t r hnd hl
    simp only [List.map_cons, List.nodup_cons] at hnd
    rw [List.lookup_cons] at hl
    cases hbeq : (k == k1) with
    | true =>
      rw [hbeq] at hl
      simp only [Option.some.injEq] at hl
      subst hl
      have hkk : k = k1 := by simpa using hbeq
      subst hkk
      rw [deepMergeAux]
      rw [lookup_deepMergeAux_notmem k rest t _ hnd.1]
      simp only [deepMergeKey]
      exact lookup_setKey_self _ _ _
    | false =>
      rw [hbeq] at hl
      rw [deepMergeAux]
      exact ih t _ hnd.2 hl

/-- C9: configuration merging replaces array-valued options wholesale:
in general, any source key holding an array ends up in the merged
object exactly as the user supplied it (first conjunct, for any target
and any duplicate-free user object), and concretely for the defaults of
the plugin: a non-empty `exclude` list discards `/login`, `/admin`,
`/account`; nested array options (`crawl.seeds`,
`extract.removeSelectors` — even when empty —, `extract.mainSelector`,
`render.blockRequests`) are replaced wholesale while sibling defaults
(`crawl.maxDepth`, `render.waitUntil`) are preserved by the deep merge. -/
theorem C9_array_options_replaced_wholesale :
    (∀ (t s : List (String × JVal)) (k : String) (xs : List JVal),
      (s.map Prod.fst).Nodup → List.lookup k s = some (.varr xs) →
      List.lookup k (deepMerge t s) = some (.varr xs)) ∧
    List.lookup "exclude" (deepMerge defaultsJ userC9) = some (.varr [.vstr "/x"]) ∧
    getObjKey (List.lookup "crawl" (deepMerge defaultsJ userC9)) "seeds" =
      some (.varr [.vstr "/a"]) ∧
    getObjKey (List.lookup "crawl" (deepMerge defaultsJ userC9)) "maxDepth" =
      some (.vnum 2) ∧
    getObjKey (List.lookup "extract" (deepMerge defaultsJ userC9)) "removeSelectors" =
      some (.varr []) ∧
    getObjKey (List.lookup "extract" (deepMerge defaultsJ userC9)) "mainSelector" =
      some (.varr [.vstr "#app"]) ∧
    getObjKey (List.lookup "render" (deepMerge defaultsJ userC9)) "blockRequests" =
      some (.varr [.vstr "x.com"]) ∧
    getObjKey (List.lookup "render" (deepMerge defaultsJ userC9)) "waitUntil" =
      some (.vstr "networkidle2") := by
  refine ⟨?_, by rfl, by rfl, by rfl, by rfl, by rfl, by rfl, by rfl⟩
  intro t s k xs hnd hl
  exact deepMergeAux_array k xs s t t hnd hl

/-- Witness for the universally quantified part of C9. -/
theorem C9_array_options_replaced_wholesale_witness :
    List.lookup "exclude"
      (deepMerge defaultsJ [("exclude", JVal.varr [.vstr "/x"])]) =
      some (.varr [.vstr "/x"]) :=
  C9_array_options_replaced_wholesale.1 defaultsJ
    [("exclude", .varr [.vstr "/x"])] "exclude" [.vstr "/x"]
    (by decide) (by rfl)
/-! ### Index-assembler lemmas (claim C8) -/

/-- Characters with equal code points are equal. -/
theorem char_toNat_inj (a b : Char) (h : a.toNat = b.toNat) : a = b :=
  Char.ext (UInt32.ext h)

/-- The lexicographic comparison is total. -/
theorem lexLe_total : ∀ a b : List Char,
    lexLe a b = true ∨ lexLe b a = true := by
  intro a
  induction a with
  | nil => intro b; exact Or.inl rfl
  | cons x xs ih =>
    intro b
    cases b with
    | nil => exact Or.inr rfl
    | cons y ys =>
      by_cases hxy : x.toNat < y.toNat
      · exact Or.inl (by simp [lexLe, hxy])
      · by_cases hyx : y.toNat < x.toNat
        · exact Or.inr (by simp [lexLe, hyx])
        · rcases ih ys with h | h
          · exact Or.inl (by simp [lexLe, hxy, hyx, h])
          · exact Or.inr (by simp [lexLe, hxy, hyx, h])

/-- The lexicographic comparison is antisymmetric. -/
theorem lexLe_antisymm : ∀ a b : List Char,
    lexLe a b = true → lexLe b a = true → a = b := by
  intro a
  induction a with
  | nil =>
    intro b h1 h2
    cases b with
    | nil => rfl
    | cons y ys => simp [lexLe] at h2
  | cons x xs ih =>
    intro b h1 h2
    cases b with
    | nil => simp [lexLe] at h1
    | cons y ys =>
      by_cases hxy : x.toNat < y.toNat
      · rw [lexLe, if_neg (by omega), if_pos hxy] at h2
        exact absurd h2 (by simp)
      · by_cases hyx : y.toNat < x.toNat
        · rw [lexLe, if_neg hxy, if_pos hyx] at h1
          exact absurd h1 (by simp)
        · rw [lexLe, if_neg hxy, if_neg hyx] at h1
          rw [lexLe, if_neg hyx, if_neg hxy] at h2
          have hx : x = y := char_toNat_inj x y (by omega)
          rw [hx, ih ys h1 h2]

/-- The lexicographic comparison is transitive. -/
theorem lexLe_trans : ∀ a b c : List Char,
    lexLe a b = true → lexLe b c = true → lexLe a c = true := by
  intro a
  induction a with
  | nil => intro b c _ _; rfl
  | cons x xs ih =>
    intro b c h1 h2
    cases b with
    | nil => simp [lexLe] at h1
    | cons y ys =>
      cases c with
      | nil => simp [lexLe] at h2
      | cons z zs =>
        rw [lexLe] at h1 h2 ⊢
        by_cases hxy : x.toNat < y.toNat
        · by_cases hyz : y.toNat < z.toNat
          · rw [if_pos (by omega)]
          · by_cases hzy : z.toNat < y.toNat
            · rw [if_neg hyz, if_pos hzy] at h2
              exact absurd h2 (by simp)
            · rw [if_pos (by omega)]
        · by_cases hyx : y.toNat < x.toNat
          · rw [if_neg hxy, if_pos hyx] at h1
            exact absurd h1 (by simp)
          · rw [if_neg hxy, if_neg hyx] at h1
            by_cases hyz : y.toNat < z.toNat
            · rw [if_pos (by omega)]
            · by_cases hzy : z.toNat < y.toNat
              · rw [if_neg hyz, if_pos hzy] at h2
                exact absurd h2 (by simp)
              · rw [if_neg hyz, if_neg hzy] at h2
                rw [if_neg (by omega), if_neg (by omega)]
                exact ih ys zs h1 h2

instance : IsTotal CapturedPage pageLe :=
  ⟨fun a b => lexLe_total a.route.data b.route.data⟩

instance : IsTrans CapturedPage pageLe :=
  ⟨fun a b c h1 h2 => lexLe_trans _ _ _ h1 h2⟩

/-- Strings with equal character data are equal. -/
theorem string_data_inj (s t : String) (h : s.data = t.data) : s = t := by
  cases s
  cases t
  exact congrArg String.mk h

/-- Pages relating both ways under the comparator share their route. -/
theorem pageLe_antisymm_route (a b : CapturedPage)
    (h1 : pageLe a b) (h2 : pageLe b a) : a.route = b.route :=
  string_data_inj _ _ (lexLe_antisymm _ _ h1 h2)

/-- Two sorted permutations of a route-duplicate-free collection are
equal as lists. -/
theorem sorted_perm_eq :
    ∀ (l₁ l₂ : List CapturedPage),
      List.Perm l₁ l₂ → l₁.Sorted pageLe → l₂.Sorted pageLe →
      (l₁.map (·.route)).Nodup → l₁ = l₂ := by
  intro l₁
  induction l₁ with
  | nil => intro l₂ hp _ _ _; exact (List.Perm.nil_eq hp).symm ▸ rfl
  | cons p t₁ ih =>
    intro l₂ hp hs₁ hs₂ hnd
    cases l₂ with
    | nil => exact absurd hp.symm (by simp)
    | cons q t₂ =>
      rw [List.sorted_cons] at hs₁ hs₂
      by_cases hpq : p = q
      · subst hpq
        have ht := hp.cons_inv
        rw [ih t₂ ht hs₁.2 hs₂.2 (by simpa using (List.nodup_cons.mp (by simpa using hnd)).2)]
      · have hpmem : p ∈ q :: t₂ := hp.subset (List.mem_cons_self _ _)
        have hqmem : q ∈ p :: t₁ := hp.symm.subset (List.mem_cons_self _ _)
        rcases List.mem_cons.mp hpmem with h | hpt₂
        · exact absurd h hpq
        rcases List.mem_cons.mp hqmem with h | hqt₁
        · exact absurd h.symm hpq
        have h1 : pageLe p q := hs₁.1 q hqt₁
        have h2 : pageLe q p := hs₂.1 p hpt₂
        have hroute := pageLe_antisymm_route p q h1 h2
        exfalso
        have : q.route ∈ t₁.map (·.route) := List.mem_map_of_mem _ hqt₁
        rw [← hroute] at this
        exact (List.nodup_cons.mp (by simpa using hnd)).1 this

/-- Captured route keys of every run are duplicate-free. -/
theorem runSpider_captured_nodup (o : SpiderOptions) (env : PageEnv)
    (sched : List (List Ev)) (fuel : Nat) :
    ((runSpider o env sched fuel).captured.map (·.route)).Nodup :=
  (runLoop_StInv (mkRunCfg o) env fuel sched
    ⟨[], [], initQueue o (resolveRouteDefs o)⟩
    ⟨List.nodup_nil, by simp, by simp⟩).2.1

/-- C8 (counterexample): with sort enabled, two runs over the same
input differing only in concurrency (1 vs 4) can produce different
index documents: with `maxPages = 1` the concurrency-4 run overshoots
the cap and captures a second page, so the published entry sets differ.
Both schedules are legal. -/
theorem C8_counterexample :
    setConc (oTwoSeedsCap1 1) 4 = oTwoSeedsCap1 4 ∧
    (oTwoSeedsCap1 1).output.sort = true ∧
    schedValidB (mkRunCfg (oTwoSeedsCap1 1)) envPlain 5 schOne
      ⟨[], [], initQueue (oTwoSeedsCap1 1) (resolveRouteDefs (oTwoSeedsCap1 1))⟩ = true ∧
    schedValidB (mkRunCfg (oTwoSeedsCap1 4)) envPlain 5 schTwo
      ⟨[], [], initQueue (oTwoSeedsCap1 4) (resolveRouteDefs (oTwoSeedsCap1 4))⟩ = true ∧
    (runSpider (oTwoSeedsCap1 1) envPlain schOne 5).captured.map (·.route) = ["/a"] ∧
    (runSpider (oTwoSeedsCap1 4) envPlain schTwo 5).captured.map (·.route) = ["/a", "/b"] ∧
    buildLlms (oTwoSeedsCap1 1) (runSpider (oTwoSeedsCap1 1) envPlain schOne 5).captured ≠
      buildLlms (oTwoSeedsCap1 4) (runSpider (oTwoSeedsCap1 4) envPlain schTwo 5).captured :=
  ⟨rfl, rfl, by decide, by decide, by decide, by decide, by decide⟩

/-- C8 (amended): with sort enabled, two runs that differ only in the
concurrency setting produce identical index-document content whenever
they capture the same collection of pages (same multiset — which
concurrency alone does not guarantee, since the page cap and depth
limits can cut the capture set differently): the assembler sorts the
duplicate-free route keys into a unique sequence, so entry set, order
and section grouping coincide. -/
theorem C8_sorted_index_deterministic
    (o : SpiderOptions) (c₁ c₂ : Nat) (env : PageEnv)
    (sched₁ sched₂ : List (List Ev)) (fuel₁ fuel₂ : Nat)
    (hsort : o.output.sort = true)
    (hperm : List.Perm (runSpider (setConc o c₁) env sched₁ fuel₁).captured
      (runSpider (setConc o c₂) env sched₂ fuel₂).captured) :
    buildLlms (setConc o c₁) (runSpider (setConc o c₁) env sched₁ fuel₁).captured =
      buildLlms (setConc o c₂) (runSpider (setConc o c₂) env sched₂ fuel₂).captured := by
  have hnd : (((runSpider (setConc o c₁) env sched₁ fuel₁).captured.map (·.route))).Nodup :=
    runSpider_captured_nodup _ _ _ _
  have hsorteq :
      List.insertionSort pageLe (runSpider (setConc o c₁) env sched₁ fuel₁).captured =
        List.insertionSort pageLe (runSpider (setConc o c₂) env sched₂ fuel₂).captured := by
    apply sorted_perm_eq
    · exact ((List.perm_insertionSort pageLe _).trans hperm).trans
        (List.perm_insertionSort pageLe _).symm
    · exact List.sorted_insertionSort pageLe _
    · exact List.sorted_insertionSort pageLe _
    · exact (((List.perm_insertionSort pageLe _).map (·.route)).nodup_iff).mpr hnd
  have hout1 : (setConc o c₁).output = o.output := rfl
  have hout2 : (setConc o c₂).output = o.output := rfl
  have henv1 : (setConc o c₁).envMode = o.envMode := rfl
  have henv2 : (setConc o c₂).envMode = o.envMode := rfl
  simp only [buildLlms, orderedItems, hout1, hout2, henv1, henv2, hsort,
    if_true, hsorteq]

/-- Witness for the amended C8: a 1-vs-2-concurrency pair of runs that
captures the same pages in different orders publishes one index. -/
theorem C8_sorted_index_deterministic_witness :
    buildLlms (setConc oBA 1) (runSpider (setConc oBA 1) envPlain schSeq2 5).captured =
      buildLlms (setConc oBA 2) (runSpider (setConc oBA 2) envPlain schRev 5).captured :=
  C8_sorted_index_deterministic oBA 1 2 envPlain schSeq2 schRev 5 5 rfl (by decide)

/-! ### Depth-patching lemmas (claim C7) -/

/-- `nodupB` certifies duplicate freedom. -/
theorem nodupB_nodup : ∀ evs : List Ev, nodupB evs = true → evs.Nodup := by
  intro evs
  induction evs with
  | nil => intro _; exact List.nodup_nil
  | cons e rest ih =>
    intro h
    rw [nodupB, Bool.and_eq_true] at h
    refine List.Nodup.cons ?_ (ih h.2)
    intro hmem
    have : rest.contains e = true := List.elem_eq_true_of_mem hmem
    rw [this] at h
    simp at h

/-- `isSubB` certifies the subsequence relation. -/
theorem isSubB_sublist : ∀ (r l : List Ev), isSubB l r = true → List.Sublist l r := by
  intro r
  induction r with
  | nil =>
    intro l h
    cases l with
    | nil => exact List.nil_sublist _
    | cons a l2 => simp [isSubB] at h
  | cons b r2 ih =>
    intro l h
    cases l with
    | nil => exact List.nil_sublist _
    | cons a l2 =>
      rw [isSubB] at h
      by_cases hab : a = b
      · rw [if_pos hab] at h
        subst hab
        exact List.Sublist.cons₂ a (ih l2 h)
      · rw [if_neg hab] at h
        exact List.Sublist.cons b (ih _ h)

/-- Enum membership from an index lookup. -/
theorem enum_mem_of_getElem (members : List BatchMember) (i : Nat)
    (m : BatchMember) (h : members[i]? = some m) : (i, m) ∈ members.enum := by
  rw [List.mk_mem_enum_iff_getElem?]
  exact h

/-- The executable validity check implies the validity predicate. -/
theorem validEventsB_valid (members : List BatchMember) (evs : List Ev)
    (h : validEventsB members evs = true) : ValidEvents members evs := by
  rw [validEventsB, Bool.and_eq_true, Bool.and_eq_true] at h
  obtain ⟨⟨hnd, hwf⟩, hper⟩ := h
  refine ⟨nodupB_nodup evs hnd, ?_, ?_⟩
  · intro ev hev
    have := List.all_eq_true.mp hwf ev hev
    cases ev with
    | commit i =>
      simp only [evWfB] at this
      simpa [evWf] using this
    | patch i =>
      simp only [evWfB, Bool.or_eq_true] at this
      rcases this with h | h
      · exact Or.inl (by simpa using h)
      · exact Or.inr (by simpa using h)
  · intro i
    constructor
    · intro hok
      cases hmi : members[i]? with
      | none => rw [hmi] at hok; simp at hok
      | some m =>
        rw [hmi] at hok
        have hst : m.status = .activeOk := by simpa using hok
        have hmm := List.all_eq_true.mp hper _ (enum_mem_of_getElem members i m hmi)
        rw [hst] at hmm
        exact isSubB_sublist _ _ hmm
    · intro hfail
      cases hmi : members[i]? with
      | none => rw [hmi] at hfail; simp at hfail
      | some m =>
        rw [hmi] at hfail
        have hst : m.status = .activeFail := by simpa using hfail
        have hmm := List.all_eq_true.mp hper _ (enum_mem_of_getElem members i m hmi)
        rw [hst] at hmm
        exact List.mem_of_elem_eq_true hmm

/-- Harvested entries always carry the unresolved marker `-1`. -/
theorem harvest_depth (rc : RunCfg) (env : PageEnv) (v : List String)
    (r : String) : ∀ e ∈ harvest rc env v r, e.2 = -1 := by
  intro e he
  simp only [harvest, List.mem_filterMap] at he
  obtain ⟨href, _, hsome⟩ := he
  revert hsome
  cases normalizeRoute rc.stripQuery href with
  | none => intro h; exact absurd h (by simp)
  | some n =>
    intro h
    split at h
    · exact absurd h (by simp)
    · split at h
      · simp only [Option.some.injEq] at h
        rw [← h]
      · exact absurd h (by simp)

/-- Entries of the patch loop: an unresolved entry gets the patching
depth plus one, everything else is untouched. -/
theorem patchAll_mem (d : Int) (q : List (String × Int)) (e : String × Int)
    (he : e ∈ patchAll d q) :
    (e.2 = d + 1 ∧ (e.1, -1) ∈ q) ∨ (e ∈ q ∧ e.2 ≠ -1) := by
  simp only [patchAll, List.mem_map] at he
  obtain ⟨e₀, he₀, hmap⟩ := he
  by_cases h0 : e₀.2 = -1
  · rw [if_pos h0] at hmap
    left
    constructor
    · rw [← hmap]
    · have h1 : e.1 = e₀.1 := by rw [← hmap]
      rw [h1]
      have : (e₀.1, (-1 : Int)) = e₀ := by
        rw [← h0]
      rw [this]
      exact he₀
  · rw [if_neg h0] at hmap
    right
    rw [← hmap]
    exact ⟨he₀, h0⟩

/-- A sublist headed by a different element survives dropping the head. -/
theorem sublist_tail_of_ne (x e : Ev) (l r : List Ev)
    (h : List.Sublist (x :: l) (e :: r)) (hne : x ≠ e) :
    List.Sublist (x :: l) r := by
  cases h with
  | cons _ h2 => exact h2
  | cons₂ _ h2 => exact absurd rfl hne

/-- A commit-then-patch sublist starting at the commit puts the patch in
the tail. -/
theorem sublist_head_mem_tail (i : Nat) (rest : List Ev)
    (hnd : (Ev.commit i :: rest).Nodup)
    (h : List.Sublist [Ev.commit i, Ev.patch i] (Ev.commit i :: rest)) :
    Ev.patch i ∈ rest := by
  cases h with
  | cons₂ _ h2 => exact h2.subset (List.mem_cons_self _ _)
  | cons _ h2 =>
    exfalso
    exact (List.nodup_cons.mp hnd).1 (h2.subset (List.mem_cons_self _ _))

/-- The commit-before-patch discipline restricts to the event tail. -/
theorem orderOK_tail (members : List BatchMember) (ev : Ev) (rest : List Ev)
    (hnd : (ev :: rest).Nodup)
    (h : ∀ (i : Nat) (m : BatchMember), members[i]? = some m →
      m.status = .activeOk → Ev.commit i ∈ ev :: rest →
      List.Sublist [Ev.commit i, Ev.patch i] (ev :: rest)) :
    ∀ (i : Nat) (m : BatchMember), members[i]? = some m →
      m.status = .activeOk → Ev.commit i ∈ rest →
      List.Sublist [Ev.commit i, Ev.patch i] rest := by
  intro i m hmi hst hc
  have hne : Ev.commit i ≠ ev := by
    intro heq
    rw [← heq] at hnd
    exact (List.nodup_cons.mp hnd).1 hc
  exact sublist_tail_of_ne _ _ _ _ (h i m hmi hst (List.mem_cons_of_mem _ hc)) hne

/-- Inside one batch, under a legal event list, every unresolved queue
entry is patched to a nonnegative depth before the batch ends. -/
theorem foldEv_queue_nonneg (rc : RunCfg) (env : PageEnv)
    (members : List BatchMember)
    (hdep : ∀ m ∈ members, 0 ≤ m.depth) :
    ∀ (evs : List Ev) (a : P2),
      evs.Nodup →
      (∀ (i : Nat) (m : BatchMember), members[i]? = some m →
        m.status = .activeOk → Ev.commit i ∈ evs →
        List.Sublist [Ev.commit i, Ev.patch i] evs) →
      (∀ i : Nat, Ev.patch i ∈ evs → i ∉ a.patched) →
      (∀ e ∈ a.st.queue, 0 ≤ e.2 ∨
        (e.2 = -1 ∧ ∃ (i : Nat) (m : BatchMember), members[i]? = some m ∧
          (m.status = .activeOk ∨ m.status = .activeFail) ∧
          Ev.patch i ∈ evs ∧ i ∉ a.patched)) →
      ∀ e ∈ (evs.foldl (applyEv rc env members) a).st.queue, 0 ≤ e.2 := by
  intro evs
  induction evs with
  | nil =>
    intro a _ _ _ hq e he
    rcases hq e he with h | ⟨_, i, m, _, _, habs, _⟩
    · exact h
    · simp at habs
  | cons ev rest ih =>
    intro a hnd horder hpatched hq
    rw [List.foldl_cons]
    have hndr : rest.Nodup := (List.nodup_cons.mp hnd).2
    have horder' := orderOK_tail members ev rest hnd horder
    have hpatched' : ∀ i : Nat, Ev.patch i ∈ rest → i ∉ a.patched :=
      fun i hi => hpatched i (List.mem_cons_of_mem _ hi)
    cases ev with
    | commit i =>
      have hqrest : ∀ e ∈ a.st.queue, 0 ≤ e.2 ∨
          (e.2 = -1 ∧ ∃ (i₀ : Nat) (m₀ : BatchMember), members[i₀]? = some m₀ ∧
            (m₀.status = .activeOk ∨ m₀.status = .activeFail) ∧
            Ev.patch i₀ ∈ rest ∧ i₀ ∉ a.patched) := by
        intro e he
        rcases hq e he with h | ⟨h1, i₀, m₀, hm₀, hst₀, hp₀, hnp₀⟩
        · exact Or.inl h
        · right
          refine ⟨h1, i₀, m₀, hm₀, hst₀, ?_, hnp₀⟩
          rcases List.mem_cons.mp hp₀ with hh | hh
          · exact absurd hh (by simp)
          · exact hh
      cases hmi : members[i]? with
      | none =>
        have ha : applyEv rc env members a (.commit i) = a := by
          simp [applyEv, hmi]
        rw [ha]
        exact ih a hndr horder' hpatched' hqrest
      | some m =>
        by_cases hcond : m.status = .activeOk ∧ i ∉ a.done
        · have ha : applyEv rc env members a (.commit i) =
              { st := commitMember rc env a.st m.route,
                done := i :: a.done, patched := a.patched } := by
            simp [applyEv, hmi, hcond]
          rw [ha]
          have hpi : Ev.patch i ∈ rest :=
            sublist_head_mem_tail i rest hnd
              (horder i m hmi hcond.1 (List.mem_cons_self _ _))
          refine ih ⟨commitMember rc env a.st m.route, i :: a.done, a.patched⟩
            hndr horder' hpatched' ?_
          intro e he
          simp only [commitMember] at he
          by_cases hcr : rc.crawlEnabled = true
          · rw [if_pos hcr] at he
            rcases List.mem_append.mp he with h | h
            · exact hqrest e h
            · right
              refine ⟨harvest_depth rc env _ _ e h, i, m, hmi,
                Or.inl hcond.1, hpi, hpatched i (List.mem_cons_of_mem _ hpi)⟩
          · rw [if_neg hcr] at he
            exact hqrest e he
        · have ha : applyEv rc env members a (.commit i) = a := by
            simp only [applyEv, hmi]
            rw [if_neg hcond]
          rw [ha]
          exact ih a hndr horder' hpatched' hqrest
    | patch i =>
      cases hmi : members[i]? with
      | none =>
        have ha : applyEv rc env members a (.patch i) = a := by
          simp [applyEv, hmi]
        rw [ha]
        apply ih a hndr horder' hpatched'
        intro e he
        rcases hq e he with h | ⟨h1, i₀, m₀, hm₀, hst₀, hp₀, hnp₀⟩
        · exact Or.inl h
        · right
          refine ⟨h1, i₀, m₀, hm₀, hst₀, ?_, hnp₀⟩
          rcases List.mem_cons.mp hp₀ with hh | hh
          · exfalso
            have : i₀ = i := by
              simpa using hh
            rw [this, hmi] at hm₀
            simp at hm₀
          · exact hh
      | some m =>
        by_cases hcond : (m.status = .activeOk ∨ m.status = .activeFail) ∧
            i ∉ a.patched
        · have ha : applyEv rc env members a (.patch i) =
              { st := { a.st with queue := patchAll m.depth a.st.queue },
                done := a.done, patched := i :: a.patched } := by
            simp [applyEv, hmi, hcond]
          rw [ha]
          apply ih _ hndr horder'
          · intro j hj
            have hji : j ≠ i := by
              intro hji
              rw [hji] at hj
              exact (List.nodup_cons.mp hnd).1 hj
            intro hmem
            rcases List.mem_cons.mp hmem with hh | hh
            · exact hji hh
            · exact hpatched j (List.mem_cons_of_mem _ hj) hh
          · intro e he
            rcases patchAll_mem m.depth a.st.queue e he with ⟨hd2, _⟩ | ⟨hin, hne1⟩
            · left
              have := hdep m (List.getElem?_mem hmi)
              omega
            · rcases hq e hin with h | ⟨h1, _⟩
              · exact Or.inl h
              · exact absurd h1 hne1
        · have ha : applyEv rc env members a (.patch i) = a := by
            simp only [applyEv, hmi]
            rw [if_neg hcond]
          rw [ha]
          apply ih a hndr horder' hpatched'
          intro e he
          rcases hq e he with h | ⟨h1, i₀, m₀, hm₀, hst₀, hp₀, hnp₀⟩
          · exact Or.inl h
          · right
            refine ⟨h1, i₀, m₀, hm₀, hst₀, ?_, hnp₀⟩
            rcases List.mem_cons.mp hp₀ with hh | hh
            · exfalso
              have hii : i₀ = i := by simpa using hh
              rw [hii, hmi] at hm₀
              simp only [Option.some.injEq] at hm₀
              rw [← hm₀] at hst₀
              exact hcond ⟨hst₀, by rw [← hii]; exact hnp₀⟩
            · exact hh

/-- Batch member depths are always nonnegative: `runStep` replaces the
unresolved marker by 1 when dispatching. -/
theorem member_depth_nonneg (rc : RunCfg) (env : PageEnv)
    (st : SpiderState) : ∀ m ∈ stepMembers rc env st, 0 ≤ m.depth := by
  intro m hm
  set ms : List (String × Int) :=
    (st.queue.take rc.conc).map (fun e => (e.1, if 0 ≤ e.2 then e.2 else 1))
    with hmsdef
  have hms : stepMembers rc env st =
      (classify rc env st.captured.length st.visited ms).2 := rfl
  obtain ⟨_, _, e, he, _, hd2⟩ :=
    classify_mem_facts rc env st.captured.length ms st.visited m (hms ▸ hm)
  rw [hmsdef] at he
  simp only [List.mem_map] at he
  obtain ⟨e₀, _, he₀⟩ := he
  rw [hd2, ← he₀]
  dsimp only
  split
  · assumption
  · omega

/-- After a batch driven by a legal event list, every queue entry has a
nonnegative depth, provided the queue had none of the unresolved
markers when the batch started. -/
theorem runStep_queue_nonneg (rc : RunCfg) (env : PageEnv)
    (st : SpiderState) (evs : List Ev)
    (hv : ValidEvents (stepMembers rc env st) evs)
    (hq0 : ∀ e ∈ st.queue, 0 ≤ e.2) :
    ∀ e ∈ (runStep rc env st evs).queue, 0 ≤ e.2 := by
  rw [runStep_eq]
  refine foldEv_queue_nonneg rc env (stepMembers rc env st)
    (member_depth_nonneg rc env st) evs
    ⟨⟨(classify rc env st.captured.length st.visited
        ((st.queue.take rc.conc).map fun e => (e.1, if 0 ≤ e.2 then e.2 else 1))).1,
      st.captured, st.queue.drop rc.conc⟩, [], []⟩ hv.1 ?_ ?_ ?_
  · intro i m hmi hst _
    exact (hv.2.2 i).1 (by rw [hmi]; simp [hst])
  · intro i _
    simp
  · intro e he
    exact Or.inl (hq0 e (List.drop_subset _ _ he))

/-- Queue depths stay nonnegative across the whole loop under any
schedule the validity checker accepts. -/
theorem runLoop_queue_nonneg (rc : RunCfg) (env : PageEnv) :
    ∀ (fuel : Nat) (sched : List (List Ev)) (st : SpiderState),
      schedValidB rc env fuel sched st = true →
      (∀ e ∈ st.queue, 0 ≤ e.2) →
      ∀ e ∈ (runLoop rc env fuel sched st).queue, 0 ≤ e.2 := by
  intro fuel
  induction fuel with
  | zero => intro sched st _ hq; exact hq
  | succ n ih =>
    intro sched st hsv hq
    rw [runLoop]
    rw [schedValidB] at hsv
    by_cases hg : st.queue ≠ [] ∧ st.captured.length < rc.maxPages
    · rw [if_pos hg] at hsv ⊢
      simp only [Bool.and_eq_true] at hsv
      obtain ⟨hsv1, hsv2⟩ := hsv
      exact ih sched.tail _ hsv2
        (runStep_queue_nonneg rc env st _ (validEventsB_valid _ _ hsv1) hq)
    · rw [if_neg hg]
      exact hq

/-- Seeded queue entries start at depth 0. -/
theorem initQueue_depth (o : SpiderOptions) (rds : List RouteDef) :
    ∀ e ∈ initQueue o rds, e.2 = 0 := by
  intro e he
  simp only [initQueue] at he
  split at he
  · simp only [List.mem_filterMap] at he
    obtain ⟨s, _, hs⟩ := he
    cases hn : normalizeRoute o.crawl.stripQuery s with
    | none => rw [hn] at hs; simp at hs
    | some n =>
      rw [hn] at hs
      have h2 : (n, (0 : Int)) = e := by simpa using hs
      rw [← h2]
  · simp only [List.mem_map] at he
    obtain ⟨rd, _, hrd⟩ := he
    rw [← hrd]

/-- C7 counterexample: in the mixed-depth crawl, the second batch
dispatches `/c` at depth 0 and `/x` at depth 1; `/x` harvests `/y`, but
under a legal schedule the patch loop of `/c` runs first and assigns
`/y` depth 0 + 1 = 1, not parentDepth + 1 = 2. With maxDepth 1 the run
then captures `/y` even though its discovery depth is 2. -/
theorem C7_counterexample :
    schedValidB (mkRunCfg oMixed) envMixed 5 schMixed
      ⟨[], [], initQueue oMixed (resolveRouteDefs oMixed)⟩ = true ∧
    (runSpider oMixed envMixed schMixed 1).queue = [("/c", 0), ("/x", 1)] ∧
    envMixed.links "/a" = ["/x"] ∧ envMixed.links "/x" = ["/y"] ∧
    envMixed.links "/b" = [] ∧ envMixed.links "/c" = [] ∧
    envMixed.links "/y" = [] ∧
    (runSpider oMixed envMixed schMixed 2).queue = [("/y", 1)] ∧
    (mkRunCfg oMixed).maxDepth = 1 ∧
    (runSpider oMixed envMixed schMixed 5).captured.map (fun p => p.route) =
      ["/a", "/b", "/c", "/x", "/y"] :=
  ⟨by decide, by decide, by decide, by decide, by decide, by decide,
   by decide, by decide, by decide, by decide⟩

/-- C7 (amended): harvested queue entries initially carry the
unresolved marker -1; a finishing member's patch loop assigns exactly
its own depth plus one to every unresolved entry in the queue (which is
parentDepth + 1 only when the finishing member is the parent); member
depths are nonnegative, so assigned depths are never less than 1; and
under every schedule the validity checker accepts, no unresolved entry
survives a batch: after the loop every queue entry has nonnegative
depth. -/
theorem C7_depth_patching :
    (∀ (rc : RunCfg) (env : PageEnv) (v : List String) (r : String),
      ∀ e ∈ harvest rc env v r, e.2 = -1) ∧
    (∀ (rc : RunCfg) (env : PageEnv) (members : List BatchMember)
      (a : P2) (i : Nat) (m : BatchMember), members[i]? = some m →
      (m.status = .activeOk ∨ m.status = .activeFail) ∧ i ∉ a.patched →
      (applyEv rc env members a (.patch i)).st.queue =
        patchAll m.depth a.st.queue ∧
      ∀ e ∈ patchAll m.depth a.st.queue,
        (e.2 = m.depth + 1 ∧ (e.1, -1) ∈ a.st.queue) ∨
        (e ∈ a.st.queue ∧ e.2 ≠ -1)) ∧
    (∀ (rc : RunCfg) (env : PageEnv) (st : SpiderState),
      ∀ m ∈ stepMembers rc env st, 0 ≤ m.depth) ∧
    (∀ (o : SpiderOptions) (env : PageEnv) (sched : List (List Ev))
      (fuel : Nat),
      schedValidB (mkRunCfg o) env fuel sched
        ⟨[], [], initQueue o (resolveRouteDefs o)⟩ = true →
      ∀ e ∈ (runSpider o env sched fuel).queue, 0 ≤ e.2) := by
  refine ⟨harvest_depth, ?_, member_depth_nonneg, ?_⟩
  · intro rc env members a i m hmi hcond
    constructor
    · simp [applyEv, hmi, hcond]
    · intro e he
      exact patchAll_mem m.depth a.st.queue e he
  · intro o env sched fuel hsv
    have hrs : runSpider o env sched fuel =
        runLoop (mkRunCfg o) env fuel sched
          ⟨[], [], initQueue o (resolveRouteDefs o)⟩ := rfl
    rw [hrs]
    refine runLoop_queue_nonneg (mkRunCfg o) env fuel sched _ hsv ?_
    intro e he
    rw [initQueue_depth o _ e he]

/-- C7 witness: the amended coverage clause evaluated on the
mixed-depth crawl after two batches. -/
theorem C7_depth_patching_witness :
    ("/y", (1 : Int)) ∈ (runSpider oMixed envMixed schMixed 2).queue ∧
    (0 : Int) ≤ (("/y", (1 : Int)) : String × Int).2 :=
  ⟨by decide,
   C7_depth_patching.2.2.2 oMixed envMixed schMixed 2 (by decide)
     ("/y", (1 : Int)) (by decide)⟩
end LlmSpider
